import Mathlib

/-!
Verification development for the passlib scheme-handler framework.

Shallow embedding conventions:
* Python text strings are `List Char`; Python byte strings are `List Nat`
  (each element a byte value `< 256`).
* Fallible Python code (functions that may `raise ValueError`) is embedded as
  `Except String _`; the error string stands for the exception message.
* The external CSPRNG (`passlib.rng`) is passed in as a function
  `rng : Nat → Nat` giving the stream of random draws.
* The opaque digest/KDF kernels (`raw_sha512_crypt`'s inner `raw_sha_crypt`,
  `pbkdf2`) are out of scope per the specification and appear as explicit
  function parameters of the operations that invoke them.

Definitions are translated from `src/passlib/utils/handlers.py`,
`src/passlib/hash/sha512_crypt.py`, `src/passlib/handlers/pbkdf2.py` and
`src/trunk.tmp/passlib/util.py`.  Helpers of the repository that are not
present under `src/` (the hash64 decoder, `parse_mc3`/`render_mc3`,
`getrandstr`, the hex codec) are modelled from the specification and say so
in their doc comments.
-/

namespace Passlib

/-- Shorthand: the character list of a string literal. -/
def cs (s : String) : List Char := s.toList

/-- Is an `Except` an error? -/
def isError {ε α : Type} : Except ε α → Bool
  | .error _ => true
  | .ok _ => false

/-! ## SettingNormalizer: `BaseSRHandler.norm_rounds` / `BaseSRHandler.norm_salt`
(src/passlib/utils/handlers.py lines 448-491) -/

/-- Rounds-related class attributes of a `BaseSRHandler` subclass
(src/passlib/utils/handlers.py lines 374-379). -/
structure RoundsCfg where
  min_rounds : Int
  max_rounds : Int
  default_rounds : Int
  strict_rounds_bounds : Bool

/-- `BaseSRHandler.norm_rounds(rounds, strict)`
(src/passlib/utils/handlers.py lines 468-491). -/
def norm_rounds (cfg : RoundsCfg) (rounds : Option Int) (strict : Bool) :
    Except String Int :=
  match rounds with
  | none =>
    if strict then .error "no rounds specified" else .ok cfg.default_rounds
  | some r =>
    let strict := strict || cfg.strict_rounds_bounds
    let step1 : Except String Int :=
      if r < cfg.min_rounds then
        if strict then .error "rounds must be >= min" else .ok cfg.min_rounds
      else .ok r
    match step1 with
    | .error e => .error e
    | .ok r =>
      if r > cfg.max_rounds then
        if strict then .error "rounds must be <= max" else .ok cfg.max_rounds
      else .ok r

/-- Salt-related class attributes of a `BaseSRHandler` subclass
(src/passlib/utils/handlers.py lines 353-369); polymorphic in the salt
element type so that it covers both character salts and byte salts. -/
structure SaltCfg (α : Type) where
  min_salt_chars : Nat
  max_salt_chars : Nat
  default_salt_chars : Nat
  default_salt_charset : List α

/-- Modelled from the spec: `getrandstr(rng, charset, count)` draws `count`
characters from `charset` via the external CSPRNG (`passlib.rng` is not under
`src/`); the CSPRNG is the stream `rng` of draws, reduced modulo the charset
size. -/
def getrandstr {α : Type} [Inhabited α] (rng : Nat → Nat) (charset : List α)
    (count : Nat) : List α :=
  (List.range count).map fun i => charset.getD (rng i % charset.length) default

/-- `BaseSRHandler.norm_salt(salt, strict)`
(src/passlib/utils/handlers.py lines 448-466). -/
def norm_salt {α : Type} [Inhabited α] (cfg : SaltCfg α) (rng : Nat → Nat)
    (salt : Option (List α)) (strict : Bool) : Except String (List α) :=
  match salt with
  | none =>
    if strict then .error "no salt specified"
    else .ok (getrandstr rng cfg.default_salt_charset cfg.default_salt_chars)
  | some s =>
    if cfg.min_salt_chars ≠ 0 ∧ s.length < cfg.min_salt_chars then
      .error "salt string too short"
    else if s.length > cfg.max_salt_chars then
      if strict then .error "salt string too long"
      else .ok (s.take cfg.max_salt_chars)
    else .ok s

/-! ## Numeral rendering and parsing

Python renders rounds with `"%d"` / `"%x"` (lowercase hex digits, no leading
zeros) and parses them with `int(token, base)`.  These are embedded as
`natToBase` / `parseBase`. -/

/-- The digit character table used by Python's `"%d"`/`"%x"` formatting
(lowercase hex digits). -/
def digitCharL (n : Nat) : Char :=
  match n with
  | 0 => '0' | 1 => '1' | 2 => '2' | 3 => '3' | 4 => '4'
  | 5 => '5' | 6 => '6' | 7 => '7' | 8 => '8' | 9 => '9'
  | 10 => 'a' | 11 => 'b' | 12 => 'c' | 13 => 'd' | 14 => 'e' | 15 => 'f'
  | _ => '*'

/-- The numeric value of a hex digit character (either case), as accepted by
Python's `int(token, base)` for bases up to 16. -/
def hexVal (c : Char) : Option Nat :=
  if '0' ≤ c ∧ c ≤ '9' then some (c.toNat - 48)
  else if 'a' ≤ c ∧ c ≤ 'f' then some (c.toNat - 87)
  else if 'A' ≤ c ∧ c ≤ 'F' then some (c.toNat - 55)
  else none

/-- Digit value restricted to a base. -/
def digVal (base : Nat) (c : Char) : Option Nat :=
  match hexVal c with
  | some v => if v < base then some v else none
  | none => none

/-- `int(token, base)` on a plain digit token (`None` when some character is
not a digit of the base). -/
def parseBase (base : Nat) (t : List Char) : Option Nat :=
  t.foldl
    (fun acc c =>
      match acc, digVal base c with
      | some a, some v => some (a * base + v)
      | _, _ => none)
    (some 0)

def natToBaseAux (base : Nat) (n : Nat) (acc : List Char) : List Char :=
  if h : n = 0 ∨ base < 2 then acc
  else natToBaseAux base (n / base) (digitCharL (n % base) :: acc)
termination_by n
decreasing_by
  push_neg at h
  exact Nat.div_lt_self (Nat.pos_of_ne_zero h.1) (by omega)

/-- Python's positional rendering of a nonnegative integer in a base
(`"%d"` for base 10, `"%x"` for base 16). -/
def natToBase (base n : Nat) : List Char :=
  if n = 0 then ['0'] else natToBaseAux base n []

end Passlib

namespace Passlib

/-! ### Character and digit lemmas -/

theorem char_le_toNat {c d : Char} (h : c ≤ d) : c.toNat ≤ d.toNat := h

theorem char_eq_of_toNat (c : Char) (k : Nat) (h : c.toNat = k) :
    c = Char.ofNat k := by
  rw [← h, Char.ofNat_toNat]

theorem hexVal_digitCharL : ∀ n < 16, hexVal (digitCharL n) = some n := by decide

theorem digitCharL_ne_zero_char : ∀ n < 16, n ≠ 0 → digitCharL n ≠ '0' := by decide

/-- A digit value below ten determines its character. -/
theorem hexVal_digit_char {c : Char} {a : Nat} (h : hexVal c = some a)
    (ha : a < 10) : digitCharL a = c := by
  unfold hexVal at h
  split_ifs at h with h1 h2 h3 <;> injection h with h
  · obtain ⟨hl, hr⟩ := h1
    have l1 : 48 ≤ c.toNat := char_le_toNat hl
    have l2 : c.toNat ≤ 57 := char_le_toNat hr
    have hk : c.toNat = 48 + a := by omega
    rw [char_eq_of_toNat c (48 + a) hk]
    interval_cases a <;> decide
  · obtain ⟨hl, hr⟩ := h2
    have l1 : 97 ≤ c.toNat := char_le_toNat hl
    have l2 : c.toNat ≤ 102 := char_le_toNat hr
    omega
  · obtain ⟨hl, hr⟩ := h3
    have l1 : 65 ≤ c.toNat := char_le_toNat hl
    have l2 : c.toNat ≤ 70 := char_le_toNat hr
    omega

theorem digVal_lt {base : Nat} {c : Char} {v : Nat} (h : digVal base c = some v) :
    v < base ∧ hexVal c = some v := by
  unfold digVal at h
  cases hv : hexVal c with
  | none => simp [hv] at h
  | some w =>
    simp only [hv] at h
    by_cases hw : w < base
    · rw [if_pos hw] at h
      injection h with h
      exact ⟨h ▸ hw, congrArg some h⟩
    · rw [if_neg hw] at h
      exact absurd h (by simp)

theorem digVal_zero_char {base : Nat} {c : Char} (h : digVal base c = some 0) :
    c = '0' := by
  obtain ⟨-, hv⟩ := digVal_lt h
  exact (hexVal_digit_char hv (by omega)).symm

theorem digVal_digitCharL {base n : Nat} (hb : base ≤ 16) (hn : n < base) :
    digVal base (digitCharL n) = some n := by
  unfold digVal
  simp only [hexVal_digitCharL n (by omega)]
  rw [if_pos hn]

/-! ### natToBase / parseBase lemmas -/

theorem natToBaseAux_append (base : Nat) : ∀ n acc,
    natToBaseAux base n acc = natToBaseAux base n [] ++ acc := by
  intro n
  induction n using Nat.strong_induction_on with
  | _ n ih =>
    intro acc
    by_cases h : n = 0 ∨ base < 2
    · have e1 : ∀ a : List Char, natToBaseAux base n a = a := fun a => by
        rw [natToBaseAux.eq_def, dif_pos h]
      rw [e1, e1]
      simp
    · have e2 : ∀ a : List Char, natToBaseAux base n a =
          natToBaseAux base (n / base) (digitCharL (n % base) :: a) := fun a => by
        rw [natToBaseAux.eq_def]
        rw [dif_neg h]
      push_neg at h
      have hd : n / base < n := Nat.div_lt_self (Nat.pos_of_ne_zero h.1) (by omega)
      rw [e2, e2, ih _ hd, ih _ hd (digitCharL (n % base) :: [])]
      simp

/-- Unfolding step: for positive `n` the last rendered digit is `n % base`. -/
theorem natToBaseAux_step (base n : Nat) (hn : n ≠ 0) (hb : 2 ≤ base) :
    natToBaseAux base n [] =
      natToBaseAux base (n / base) [] ++ [digitCharL (n % base)] := by
  rw [natToBaseAux.eq_def, dif_neg (by omega)]
  exact natToBaseAux_append base (n / base) [digitCharL (n % base)]

theorem parseBase_append_digit (base : Nat) (A : List Char) (c : Char) :
    parseBase base (A ++ [c]) =
      match parseBase base A, digVal base c with
      | some a, some v => some (a * base + v)
      | _, _ => none := by
  simp only [parseBase, List.foldl_append, List.foldl_cons, List.foldl_nil]

theorem parseBase_natToBaseAux (base : Nat) (hb2 : 2 ≤ base) (hb16 : base ≤ 16) :
    ∀ n, n ≠ 0 → parseBase base (natToBaseAux base n []) = some n := by
  intro n
  induction n using Nat.strong_induction_on with
  | _ n ih =>
    intro hn
    rw [natToBaseAux_step base n hn hb2]
    by_cases hq : n / base = 0
    · have hlt : n < base := by
        rcases Nat.lt_or_ge n base with h | h
        · exact h
        · have := Nat.one_le_div_iff (by omega : 0 < base) |>.mpr h
          omega
      rw [hq, natToBaseAux.eq_def, dif_pos (Or.inl rfl)]
      simp only [List.nil_append, parseBase, List.foldl_cons, List.foldl_nil]
      rw [Nat.mod_eq_of_lt hlt]
      rw [digVal_digitCharL hb16 hlt]
      show some (0 * base + n) = some n
      exact congrArg some (by omega)
    · rw [parseBase_append_digit]
      have hd : n / base < n := Nat.div_lt_self (Nat.pos_of_ne_zero hn) (by omega)
      rw [ih _ hd hq]
      rw [digVal_digitCharL hb16
        (show n % base < base from Nat.mod_lt n (show 0 < base by omega))]
      show some (n / base * base + n % base) = some n
      exact congrArg some (by rw [Nat.mul_comm]; exact Nat.div_add_mod n base)

theorem parseBase_natToBase (base n : Nat) (hb2 : 2 ≤ base) (hb16 : base ≤ 16) :
    parseBase base (natToBase base n) = some n := by
  by_cases hn : n = 0
  · subst hn
    rw [natToBase, if_pos rfl]
    have h0 : digVal base '0' = some 0 := by
      unfold digVal
      simp only [show hexVal '0' = some 0 from by decide]
      rw [if_pos (by omega : (0 : Nat) < base)]
    simp only [parseBase, List.foldl_cons, List.foldl_nil, h0]
    show some (0 * base + 0) = some 0
    exact congrArg some (by omega)
  · rw [natToBase, if_neg hn]
    exact parseBase_natToBaseAux base hb2 hb16 n hn

theorem natToBaseAux_ne_nil (base n : Nat) (hn : n ≠ 0) (hb : 2 ≤ base) :
    natToBaseAux base n [] ≠ [] := by
  rw [natToBaseAux_step base n hn hb]
  simp

theorem natToBase_ne_nil (base n : Nat) (hb : 2 ≤ base) :
    natToBase base n ≠ [] := by
  unfold natToBase
  by_cases hn : n = 0
  · rw [if_pos hn]; simp
  · rw [if_neg hn]; exact natToBaseAux_ne_nil base n hn hb

theorem natToBaseAux_digits (base : Nat) (hb2 : 2 ≤ base) (hb16 : base ≤ 16) :
    ∀ n, ∀ c ∈ natToBaseAux base n [], (digVal base c).isSome := by
  intro n
  induction n using Nat.strong_induction_on with
  | _ n ih =>
    intro c hc
    by_cases hn : n = 0
    · subst hn
      rw [natToBaseAux.eq_def, dif_pos (Or.inl rfl)] at hc
      simp at hc
    · rw [natToBaseAux_step base n hn hb2] at hc
      rcases List.mem_append.1 hc with h | h
      · exact ih _ (Nat.div_lt_self (Nat.pos_of_ne_zero hn) (by omega)) c h
      · have hce : c = digitCharL (n % base) := by simpa using h
        subst hce
        rw [digVal_digitCharL hb16
          (show n % base < base from Nat.mod_lt n (show 0 < base by omega))]
        rfl

theorem natToBase_digits (base : Nat) (hb2 : 2 ≤ base) (hb16 : base ≤ 16)
    (n : Nat) : ∀ c ∈ natToBase base n, (digVal base c).isSome := by
  intro c hc
  unfold natToBase at hc
  by_cases hn : n = 0
  · rw [if_pos hn] at hc
    have : c = '0' := by simpa using hc
    subst this
    unfold digVal
    simp only [show hexVal '0' = some 0 from by decide]
    rw [if_pos (by omega : (0 : Nat) < base)]
    rfl
  · rw [if_neg hn] at hc
    exact natToBaseAux_digits base hb2 hb16 n c hc

theorem head?_append_of_ne_nil {α : Type} (A B : List α) (h : A ≠ []) :
    (A ++ B).head? = A.head? := by
  cases A with
  | nil => exact absurd rfl h
  | cons a as => rfl

theorem natToBaseAux_head (base : Nat) (hb2 : 2 ≤ base) (hb16 : base ≤ 16) :
    ∀ n, n ≠ 0 → (natToBaseAux base n []).head? ≠ some '0' := by
  intro n
  induction n using Nat.strong_induction_on with
  | _ n ih =>
    intro hn
    rw [natToBaseAux_step base n hn hb2]
    by_cases hq : n / base = 0
    · have hlt : n < base := by
        rcases Nat.lt_or_ge n base with h | h
        · exact h
        · have := Nat.one_le_div_iff (by omega : 0 < base) |>.mpr h
          omega
      rw [hq, natToBaseAux.eq_def, dif_pos (Or.inl rfl)]
      rw [Nat.mod_eq_of_lt hlt]
      simp only [List.nil_append, List.head?_cons, ne_eq, Option.some.injEq]
      exact digitCharL_ne_zero_char n (by omega) hn
    · rw [head?_append_of_ne_nil _ _ (natToBaseAux_ne_nil base (n / base) hq hb2)]
      exact ih _ (Nat.div_lt_self (Nat.pos_of_ne_zero hn) (by omega)) hq

theorem natToBase_head (base n : Nat) (hb2 : 2 ≤ base) (hb16 : base ≤ 16)
    (hn : n ≠ 0) : (natToBase base n).head? ≠ some '0' := by
  rw [natToBase, if_neg hn]
  exact natToBaseAux_head base hb2 hb16 n hn

theorem parseBase_go (base : Nat) (hb : 1 ≤ base) : ∀ (t : List Char) (a : Nat),
    (∀ c ∈ t, (digVal base c).isSome) →
    ∃ w, (t.foldl
      (fun acc c =>
        match acc, digVal base c with
        | some a, some v => some (a * base + v)
        | _, _ => none)
      (some a)) = some w ∧ a ≤ w := by
  intro t
  induction t with
  | nil => exact fun a _ => ⟨a, rfl, le_rfl⟩
  | cons c rest ih =>
    intro a hall
    obtain ⟨v, hv⟩ := Option.isSome_iff_exists.1 (hall c (List.mem_cons_self c rest))
    simp only [List.foldl_cons, hv]
    obtain ⟨w, hw, hle⟩ := ih (a * base + v)
      (fun d hd => hall d (List.mem_cons_of_mem c hd))
    refine ⟨w, hw, le_trans ?_ hle⟩
    have h1 : a * 1 ≤ a * base := Nat.mul_le_mul_left a (by omega)
    omega

theorem parseBase_pos (base : Nat) (hb : 1 ≤ base) (c : Char) (rest : List Char)
    (hall : ∀ x ∈ c :: rest, (digVal base x).isSome) (hc : c ≠ '0') :
    ∃ w, parseBase base (c :: rest) = some w ∧ 1 ≤ w := by
  obtain ⟨v, hv⟩ := Option.isSome_iff_exists.1 (hall c (List.mem_cons_self c rest))
  have hv1 : 1 ≤ v := by
    rcases Nat.eq_zero_or_pos v with h | h
    · exact absurd (digVal_zero_char (h ▸ hv)) hc
    · exact h
  unfold parseBase
  simp only [List.foldl_cons, hv]
  obtain ⟨w, hw, hle⟩ := parseBase_go base hb rest (0 * base + v)
    (fun d hd => hall d (List.mem_cons_of_mem c hd))
  exact ⟨w, hw, by omega⟩

/-- Canonicity: a nonempty all-digit token with no leading zero re-renders to
itself (for a base at most ten, where digit characters are unambiguous). -/
theorem natToBase_parseBase (base : Nat) (hb2 : 2 ≤ base) (hb10 : base ≤ 10) :
    ∀ (t : List Char), t ≠ [] → (∀ c ∈ t, (digVal base c).isSome) →
      t.head? ≠ some '0' → ∀ v, parseBase base t = some v →
        natToBase base v = t := by
  intro t
  induction t using List.reverseRecOn with
  | nil => intro h; exact absurd rfl h
  | append_singleton ys c ih =>
    intro _ hall hhead v hv
    rw [parseBase_append_digit] at hv
    obtain ⟨u, hu⟩ := Option.isSome_iff_exists.1
      (hall c (List.mem_append.2 (Or.inr (List.mem_singleton_self c))))
    have hub : u < base := (digVal_lt hu).1
    have huc : hexVal c = some u := (digVal_lt hu).2
    cases ys with
    | nil =>
      have hc0 : c ≠ '0' := by
        simp only [List.nil_append, List.head?_cons, ne_eq, Option.some.injEq] at hhead
        exact hhead
      have hu1 : u ≠ 0 := fun h => hc0 (digVal_zero_char (h ▸ hu))
      simp only [List.nil_append]
      simp only [parseBase, List.foldl_nil, hu] at hv
      have hvv : u = v := by
        have : some (0 * base + u) = some v := hv
        injection this with this
        omega
      subst hvv
      rw [natToBase, if_neg hu1, natToBaseAux_step base u hu1 hb2]
      have hq : u / base = 0 := Nat.div_eq_of_lt hub
      rw [hq, natToBaseAux.eq_def, dif_pos (Or.inl rfl), Nat.mod_eq_of_lt hub]
      rw [hexVal_digit_char huc (by omega)]
      rfl
    | cons y ys' =>
      have hys : (y :: ys' : List Char) ≠ [] := by simp
      have hhead' : (y :: ys' : List Char).head? ≠ some '0' := by
        rwa [head?_append_of_ne_nil _ _ hys] at hhead
      have hally : ∀ x ∈ (y :: ys' : List Char), (digVal base x).isSome :=
        fun x hx => hall x (List.mem_append.2 (Or.inl hx))
      have hcy : y ≠ '0' := by
        simp only [List.head?_cons, ne_eq, Option.some.injEq] at hhead'
        exact hhead'
      obtain ⟨w, hw, hw1⟩ := parseBase_pos base (by omega) y ys' hally hcy
      rw [hw, hu] at hv
      have hvv : v = w * base + u := by
        have : some (w * base + u) = some v := hv
        injection this with this
        omega
      subst hvv
      have hv0 : w * base + u ≠ 0 := by
        have : 1 * base ≤ w * base := Nat.mul_le_mul_right base hw1
        omega
      rw [natToBase, if_neg hv0, natToBaseAux_step base _ hv0 hb2]
      have hdiv : (w * base + u) / base = w := by
        rw [Nat.add_comm, Nat.add_mul_div_right u w (by omega : 0 < base)]
        rw [Nat.div_eq_of_lt hub]
        omega
      have hmod : (w * base + u) % base = u := by
        rw [Nat.add_comm, Nat.add_mul_mod_self_right]
        exact Nat.mod_eq_of_lt hub
      rw [hdiv, hmod]
      rw [hexVal_digit_char huc (by omega)]
      have hysr : natToBase base w = y :: ys' :=
        ih hys hally hhead' w hw
      rw [natToBase, if_neg (by omega : w ≠ 0)] at hysr
      rw [hysr]

/-! ## Hash64 codec (src/trunk.tmp/passlib/util.py lines 224-266) -/

/-- `H64_CHARS` (src/trunk.tmp/passlib/util.py line 224). -/
def H64_CHARS : List Char :=
  cs "./0123456789ABCDEFGHIJKLMNOPQRSTUVWXYZabcdefghijklmnopqrstuvwxyz"

/-- Indexing into the hash64 alphabet (`H64_CHARS[i]`). -/
def H64C (n : Nat) : Char := H64_CHARS.getD n '!'

/-- `h64_encode_3_offsets` (src/trunk.tmp/passlib/util.py lines 234-253),
applied to the byte values `v1 v2 v3` found at the three offsets. -/
def h64_encode_3 (v1 v2 v3 : Nat) : List Char :=
  [H64C (v1 % 64),
   H64C (v2 % 16 * 4 + v1 / 64),
   H64C (v3 % 4 * 16 + v2 / 16),
   H64C (v3 / 4)]

/-- `h64_encode_2_offsets` (src/trunk.tmp/passlib/util.py lines 255-261). -/
def h64_encode_2 (v1 v2 : Nat) : List Char :=
  [H64C (v1 % 64), H64C (v2 % 16 * 4 + v1 / 64), H64C (v2 / 16)]

/-- `h64_encode_1_offset` (src/trunk.tmp/passlib/util.py lines 263-266). -/
def h64_encode_1 (v1 : Nat) : List Char :=
  [H64C (v1 % 64), H64C (v1 / 64)]

/-- Hash64 encoding of a whole byte string: successive 3-byte groups through
`h64_encode_3`, with a trailing group of 2 or 1 bytes through
`h64_encode_2` / `h64_encode_1` (how the callers of the offset encoders
assemble them over consecutive offsets). -/
def h64_encode : List Nat → List Char
  | [] => []
  | [v1] => h64_encode_1 v1
  | [v1, v2] => h64_encode_2 v1 v2
  | v1 :: v2 :: v3 :: rest => h64_encode_3 v1 v2 v3 ++ h64_encode rest

/-- Index of a character in a list. -/
def idxIn (c : Char) : List Char → Option Nat
  | [] => none
  | d :: rest => if d = c then some 0 else (idxIn c rest).map (· + 1)

def h64CharIdx (c : Char) : Option Nat := idxIn c H64_CHARS

/-- Modelled from the spec: the hash64 decoder (not present under `src/`);
the exact inverse unpacking of the 6-bits-per-symbol least-significant-first
packing, taking eight bits per output byte. -/
def h64_decode : List Char → Option (List Nat)
  | [] => some []
  | [_] => none
  | [c1, c2] => do
    let a ← h64CharIdx c1
    let b ← h64CharIdx c2
    some [(a + b * 64) % 256]
  | [c1, c2, c3] => do
    let a ← h64CharIdx c1
    let b ← h64CharIdx c2
    let c ← h64CharIdx c3
    some [(a + b * 64) % 256, (b / 4 + c * 16) % 256]
  | c1 :: c2 :: c3 :: c4 :: rest => do
    let a ← h64CharIdx c1
    let b ← h64CharIdx c2
    let c ← h64CharIdx c3
    let d ← h64CharIdx c4
    let tail ← h64_decode rest
    some ((a + b * 64) % 256 :: (b / 4 + c * 16) % 256 ::
      (c / 16 + d * 4) % 256 :: tail)

theorem h64CharIdx_H64C : ∀ n < 64, h64CharIdx (H64C n) = some n := by decide

/-- C5: hash64 decoding is the exact left inverse of hash64 encoding, for
every byte string including partial final groups (1 byte encoding to 2
symbols and 2 bytes to 3 symbols with the unused high bits forced to zero):
`decode (encode b) = b`. -/
theorem h64_decode_encode : ∀ (b : List Nat), (∀ v ∈ b, v < 256) →
    h64_decode (h64_encode b) = some b
  | [], _ => rfl
  | [v1], h => by
    have hv1 : v1 < 256 := h v1 (by simp)
    simp only [h64_encode, h64_encode_1, h64_decode,
      h64CharIdx_H64C (v1 % 64) (by omega),
      h64CharIdx_H64C (v1 / 64) (by omega),
      Option.bind_eq_bind, Option.some_bind]
    have e1 : (v1 % 64 + v1 / 64 * 64) % 256 = v1 := by omega
    rw [e1]
  | [v1, v2], h => by
    have hv1 : v1 < 256 := h v1 (by simp)
    have hv2 : v2 < 256 := h v2 (by simp)
    simp only [h64_encode, h64_encode_2, h64_decode,
      h64CharIdx_H64C (v1 % 64) (by omega),
      h64CharIdx_H64C (v2 % 16 * 4 + v1 / 64) (by omega),
      h64CharIdx_H64C (v2 / 16) (by omega),
      Option.bind_eq_bind, Option.some_bind]
    have e1 : (v1 % 64 + (v2 % 16 * 4 + v1 / 64) * 64) % 256 = v1 := by omega
    have e2 : ((v2 % 16 * 4 + v1 / 64) / 4 + v2 / 16 * 16) % 256 = v2 := by omega
    rw [e1, e2]
  | v1 :: v2 :: v3 :: rest, h => by
    have hv1 : v1 < 256 := h v1 (by simp)
    have hv2 : v2 < 256 := h v2 (by simp)
    have hv3 : v3 < 256 := h v3 (by simp)
    have ih := h64_decode_encode rest
      (fun v hv => h v (by simp [hv]))
    simp only [h64_encode, h64_encode_3, List.cons_append, List.nil_append,
      h64_decode,
      h64CharIdx_H64C (v1 % 64) (by omega),
      h64CharIdx_H64C (v2 % 16 * 4 + v1 / 64) (by omega),
      h64CharIdx_H64C (v3 % 4 * 16 + v2 / 16) (by omega),
      h64CharIdx_H64C (v3 / 4) (by omega),
      ih, Option.bind_eq_bind, Option.some_bind]
    have e1 : (v1 % 64 + (v2 % 16 * 4 + v1 / 64) * 64) % 256 = v1 := by omega
    have e2 : ((v2 % 16 * 4 + v1 / 64) / 4 + (v3 % 4 * 16 + v2 / 16) * 16) % 256
        = v2 := by omega
    have e3 : ((v3 % 4 * 16 + v2 / 16) / 16 + v3 / 4 * 4) % 256 = v3 := by omega
    rw [e1, e2, e3]
    simp [ih]

theorem h64_decode_encode_witness :
    (∀ v ∈ [0, 1, 63, 64, 200, 255, 7], v < 256) ∧
      h64_decode (h64_encode [0, 1, 63, 64, 200, 255, 7]) =
        some [0, 1, 63, 64, 200, 255, 7] :=
  ⟨by decide, h64_decode_encode [0, 1, 63, 64, 200, 255, 7] (by decide)⟩

/-! ## sha512_crypt (src/passlib/hash/sha512_crypt.py)

The digest kernel `raw_sha512_crypt` (whose inner `raw_sha_crypt` lives in
the sha256_crypt module, an external collaborator per the spec) is passed in
as a function `raw : secret → salt → rounds → (checksum, salt, rounds)`. -/

/-- The characters excluded from the salt field by the recognition regexp
(`[^:$\n]`). -/
def saltBad (c : Char) : Bool := c = '$' || c = ':' || c = '\n'

/-- The checksum character class of the recognition regexp
(`[A-Za-z0-9./]`). -/
def isH64Char (c : Char) : Bool :=
  c = '.' || c = '/' || ('0' ≤ c && c ≤ '9') || ('A' ≤ c && c ≤ 'Z') ||
    ('a' ≤ c && c ≤ 'z')

/-- An `sha512_crypt` instance: the `checksum`, `salt`, `rounds` attributes of
`BaseSRHandler` plus the handler's own `implicit_rounds` flag (Python default
`None`, which is falsy, is embedded as `false`). -/
structure Sha512Inst where
  checksum : Option (List Char)
  salt : List Char
  rounds : Nat
  implicit_rounds : Bool

/-- Rounds bounds of `sha512_crypt`
(src/passlib/hash/sha512_crypt.py lines 106-110). -/
def sha512_rounds_cfg : RoundsCfg := ⟨1000, 999999999, 40000, false⟩

/-- Salt bounds of `sha512_crypt` (lines 102-103; `default_salt_chars` and
`default_salt_charset` fall back to `max_salt_chars` and `salt_chars` through
the class properties of `BaseSRHandler`). -/
def sha512_salt_cfg : SaltCfg Char := ⟨0, 16, 16, H64_CHARS⟩

/-- `norm_rounds` restricted to nonnegative (parsed) rounds values. -/
def norm_rounds_nat (cfg : RoundsCfg) (rounds : Option Nat) (strict : Bool) :
    Except String Nat :=
  (norm_rounds cfg (rounds.map fun n => (n : Int)) strict).map Int.toNat

/-- `BaseSRHandler.__init__` as invoked through `sha512_crypt.__init__`
(normalize the salt, then the rounds, keep the checksum and the
`implicit_rounds` flag). -/
def sha512_mk (rng : Nat → Nat) (checksum : Option (List Char))
    (salt : Option (List Char)) (rounds : Option Nat)
    (implicit_rounds strict : Bool) : Except String Sha512Inst := do
  let s ← norm_salt sha512_salt_cfg rng salt strict
  let r ← norm_rounds_nat sha512_rounds_cfg rounds strict
  .ok ⟨checksum, s, r, implicit_rounds⟩

/-- `sha512_crypt.to_string` (src/passlib/hash/sha512_crypt.py lines
211-216). -/
def sha512_to_string (self : Sha512Inst) : List Char :=
  if self.rounds = 5000 ∧ self.implicit_rounds = true then
    cs "$6$" ++ self.salt ++ cs "$" ++ self.checksum.getD []
  else
    cs "$6$rounds=" ++ natToBase 10 self.rounds ++ cs "$" ++ self.salt ++
      cs "$" ++ self.checksum.getD []

/-- The salt/checksum tail of the recognition regexp `_pat`: either
`(?P<salt1>[^:$\n]*)` matching the whole remainder, or
`(?P<salt2>[^:$\n]{0,16})\$(?P<chk>[A-Za-z0-9./]{86})?`. -/
def sha512_saltpart (r : List Char) : Option (List Char × Option (List Char)) :=
  let run := r.takeWhile fun c => !saltBad c
  match r.drop run.length with
  | [] => some (run, none)
  | c :: tail =>
    if c = '$' ∧ run.length ≤ 16 then
      match tail with
      | [] => some (run, none)
      | _ :: _ =>
        if tail.length = 86 ∧ tail.all isH64Char then some (run, some tail)
        else none
    else none

/-- The recognition regexp `_pat` (src/passlib/hash/sha512_crypt.py lines
113-126): `$6`, an optional `$rounds=<digits>` group, `$`, then the
salt/checksum tail.  The optional group commits whenever `$rounds=` is
followed by one or more digits and a `$` (when the tail then fails to match,
the backtracking alternative fails as well, see `sha512_parse_spec`
reasoning in the proofs below). -/
def sha512_parse (s : List Char) :
    Option (Option (List Char) × List Char × Option (List Char)) :=
  if (cs "$6$rounds=").isPrefixOf s then
    let rest := s.drop 10
    let tok := rest.takeWhile Char.isDigit
    let rest2 := rest.drop tok.length
    if tok ≠ [] ∧ rest2.head? = some '$' then
      match sha512_saltpart rest2.tail with
      | some (salt, chk) => some (some tok, salt, chk)
      | none => none
    else
      (sha512_saltpart (s.drop 3)).map fun p => (none, p.1, p.2)
  else if (cs "$6$").isPrefixOf s then
    (sha512_saltpart (s.drop 3)).map fun p => (none, p.1, p.2)
  else none

/-- `sha512_crypt.from_string` (src/passlib/hash/sha512_crypt.py lines
193-209). -/
def sha512_from_string (rng : Nat → Nat) (hash : List Char) :
    Except String Sha512Inst :=
  if hash = [] then .error "no hash specified"
  else
    match sha512_parse hash with
    | none => .error "invalid sha512-crypt hash"
    | some (roundsTok, salt, chk) =>
      match roundsTok with
      | some tok =>
        if tok.head? = some '0' then
          .error "invalid sha512-crypt hash (zero-padded rounds)"
        else
          sha512_mk rng chk (some salt) (some ((parseBase 10 tok).getD 0))
            false chk.isSome
      | none =>
        sha512_mk rng chk (some salt) (some 5000) true chk.isSome

/-- `sha512_crypt.genconfig` (lines 139-162). -/
def sha512_genconfig (rng : Nat → Nat) (salt : Option (List Char))
    (rounds : Option Nat) (implicit_rounds : Bool) :
    Except String (List Char) :=
  (sha512_mk rng none salt rounds implicit_rounds false).map sha512_to_string

/-- `sha512_crypt.genhash` with the builtin backend (lines 164-178);
`raw` is the opaque `raw_sha512_crypt` kernel. -/
def sha512_genhash (raw : List Char → List Char → Nat → List Char × List Char × Nat)
    (rng : Nat → Nat) (secret config : List Char) : Except String (List Char) := do
  let self ← sha512_from_string rng config
  let out := raw secret self.salt self.rounds
  .ok (sha512_to_string ⟨some out.1, out.2.1, out.2.2, self.implicit_rounds⟩)

/-- `BaseSRHandler.encrypt` for `sha512_crypt` (no `calc_checksum`, so
`genhash(secret, self.to_string())`; src/passlib/utils/handlers.py lines
526-534). -/
def sha512_encrypt (raw : List Char → List Char → Nat → List Char × List Char × Nat)
    (rng : Nat → Nat) (secret : List Char) (salt : Option (List Char))
    (rounds : Option Nat) (implicit_rounds : Bool) : Except String (List Char) := do
  let self ← sha512_mk rng none salt rounds implicit_rounds false
  sha512_genhash raw rng secret (sha512_to_string self)

/-- `BaseSRHandler.verify` for `sha512_crypt` (no `calc_checksum`, so string
equality with `genhash(secret, hash)`; src/passlib/utils/handlers.py lines
536-544). -/
def sha512_verify (raw : List Char → List Char → Nat → List Char × List Char × Nat)
    (rng : Nat → Nat) (secret hash : List Char) : Except String Bool :=
  (sha512_genhash raw rng secret hash).map fun other => hash == other

/-- `sha512_crypt.identify` (src/passlib/hash/sha512_crypt.py lines
183-185). -/
def sha512_identify (hash : List Char) : Bool :=
  !hash.isEmpty && (cs "$6$").isPrefixOf hash

/-! ### Parsing lemmas for sha512_crypt -/

theorem takeWhile_append_cons {α : Type} (p : α → Bool) (A : List α) (c : α)
    (B : List α) (hA : ∀ a ∈ A, p a = true) (hc : p c = false) :
    (A ++ c :: B).takeWhile p = A := by
  induction A with
  | nil => simp [List.takeWhile_cons, hc]
  | cons a as ih =>
    have h2 := ih fun x hx => hA x (List.mem_cons_of_mem a hx)
    simp [List.takeWhile_cons, hA a (List.mem_cons_self a as), h2]

/-- The optional `$rounds=` group of `_pat` cannot fire on `$6$<salt>$...`
unless the salt itself starts with `rounds=`. -/
theorem not_roundsEq_prefix (salt x : List Char)
    (hs : ¬ cs "rounds=" <+: salt) :
    ¬ cs "$6$rounds=" <+: cs "$6$" ++ salt ++ '$' :: x := by
  intro h
  obtain ⟨t, ht⟩ := h
  have ht2 : cs "rounds=" ++ t = salt ++ '$' :: x := by
    have : cs "$6$" ++ (cs "rounds=" ++ t) = cs "$6$" ++ (salt ++ '$' :: x) := ht
    exact List.append_cancel_left this
  have hp : cs "rounds=" <+: salt ++ '$' :: x := ⟨t, ht2⟩
  have hsp : salt <+: salt ++ '$' :: x := List.prefix_append salt _
  rcases le_or_lt (cs "rounds=").length salt.length with hle | hlt
  · exact hs (List.prefix_of_prefix_length_le hp hsp hle)
  · obtain ⟨q, hq⟩ := List.prefix_of_prefix_length_le hsp hp (Nat.le_of_lt hlt)
    have hqt : q ++ t = '$' :: x := by
      have : salt ++ (q ++ t) = salt ++ '$' :: x := by
        rw [← List.append_assoc, hq]; exact ht2
      exact List.append_cancel_left this
    have hqne : q ≠ [] := by
      intro hqe
      rw [hqe, List.append_nil] at hq
      have := congrArg List.length hq
      omega
    have hdol : '$' ∈ cs "rounds=" := by
      rw [← hq]
      cases q with
      | nil => exact absurd rfl hqne
      | cons a q' =>
        have ha : a = '$' := by
          have := hqt
          simp only [List.cons_append, List.cons.injEq] at this
          exact this.1
        subst ha
        exact List.mem_append.2 (Or.inr (List.mem_cons_self _ _))
    exact absurd hdol (by decide)

theorem saltpart_config (salt : List Char)
    (hok : ∀ c ∈ salt, saltBad c = false) (hlen : salt.length ≤ 16) :
    sha512_saltpart (salt ++ ['$']) = some (salt, none) := by
  unfold sha512_saltpart
  have htw : (salt ++ '$' :: ([] : List Char)).takeWhile (fun c => !saltBad c)
      = salt :=
    takeWhile_append_cons _ salt '$' [] (fun a ha => by rw [hok a ha]; rfl) rfl
  simp only [htw, List.drop_left]
  rw [if_pos ⟨by trivial, hlen⟩]

theorem saltpart_hash (salt chk : List Char)
    (hok : ∀ c ∈ salt, saltBad c = false) (hlen : salt.length ≤ 16)
    (hcl : chk.length = 86) (hcok : chk.all isH64Char = true) :
    sha512_saltpart (salt ++ '$' :: chk) = some (salt, some chk) := by
  unfold sha512_saltpart
  have htw : (salt ++ '$' :: chk).takeWhile (fun c => !saltBad c) = salt :=
    takeWhile_append_cons _ salt '$' chk (fun a ha => by rw [hok a ha]; rfl) rfl
  simp only [htw, List.drop_left]
  rw [if_pos ⟨by trivial, hlen⟩]
  cases chk with
  | nil => simp at hcl
  | cons c0 chk' =>
    rw [if_pos ⟨hcl, hcok⟩]

theorem sha512_parse_explicit (tok Y : List Char) (htok : tok ≠ [])
    (hdig : ∀ c ∈ tok, c.isDigit = true) :
    sha512_parse (cs "$6$rounds=" ++ (tok ++ '$' :: Y)) =
      match sha512_saltpart Y with
      | some (salt, chk) => some (some tok, salt, chk)
      | none => none := by
  have hpre : (cs "$6$rounds=").isPrefixOf
      (cs "$6$rounds=" ++ (tok ++ '$' :: Y)) = true :=
    List.isPrefixOf_iff_prefix.2 (List.prefix_append _ _)
  have hdrop : (cs "$6$rounds=" ++ (tok ++ '$' :: Y)).drop 10 = tok ++ '$' :: Y := by
    rw [show (10 : Nat) = (cs "$6$rounds=").length from rfl]
    exact List.drop_left _ _
  have htw : (tok ++ '$' :: Y).takeWhile Char.isDigit = tok :=
    takeWhile_append_cons _ tok '$' Y hdig rfl
  have hdrop2 : (tok ++ '$' :: Y).drop tok.length = '$' :: Y := List.drop_left _ _
  simp only [sha512_parse, hpre, if_true, hdrop, htw, hdrop2, List.head?_cons,
    List.tail_cons, ne_eq, eq_self_iff_true, and_true]
  rw [if_pos htok]

theorem sha512_parse_fallback (salt x : List Char)
    (hnr : ¬ cs "rounds=" <+: salt) :
    sha512_parse (cs "$6$" ++ (salt ++ '$' :: x)) =
      (sha512_saltpart (salt ++ '$' :: x)).map fun p => (none, p.1, p.2) := by
  have hpf : (cs "$6$rounds=").isPrefixOf (cs "$6$" ++ (salt ++ '$' :: x))
      = false := by
    rw [← Bool.not_eq_true, List.isPrefixOf_iff_prefix]
    show ¬ cs "$6$rounds=" <+: cs "$6$" ++ salt ++ '$' :: x
    exact not_roundsEq_prefix salt x hnr
  have hpre : (cs "$6$").isPrefixOf (cs "$6$" ++ (salt ++ '$' :: x)) = true :=
    List.isPrefixOf_iff_prefix.2 (List.prefix_append _ _)
  have hdrop : (cs "$6$" ++ (salt ++ '$' :: x)).drop 3 = salt ++ '$' :: x := by
    rw [show (3 : Nat) = (cs "$6$").length from rfl]
    exact List.drop_left _ _
  simp only [sha512_parse, hpf, hpre, if_true, hdrop, Bool.false_eq_true,
    if_false]

/-! ### Construction lemmas -/

theorem norm_salt_in_range {α : Type} [Inhabited α] (cfg : SaltCfg α)
    (rng : Nat → Nat) (s : List α) (strict : Bool)
    (h1 : cfg.min_salt_chars ≤ s.length) (h2 : s.length ≤ cfg.max_salt_chars) :
    norm_salt cfg rng (some s) strict = .ok s := by
  simp only [norm_salt]
  rw [if_neg (by omega), if_neg (by omega)]

theorem norm_rounds_in_range (cfg : RoundsCfg) (r : Int) (strict : Bool)
    (h1 : cfg.min_rounds ≤ r) (h2 : r ≤ cfg.max_rounds) :
    norm_rounds cfg (some r) strict = .ok r := by
  simp only [norm_rounds]
  rw [if_neg (by omega)]
  simp only
  rw [if_neg (by omega)]

theorem norm_rounds_nat_in_range (cfg : RoundsCfg) (r : Nat) (strict : Bool)
    (h1 : cfg.min_rounds ≤ (r : Int)) (h2 : (r : Int) ≤ cfg.max_rounds) :
    norm_rounds_nat cfg (some r) strict = .ok r := by
  unfold norm_rounds_nat
  show (norm_rounds cfg (some ((r : Int))) strict).map Int.toNat = .ok r
  rw [norm_rounds_in_range cfg _ strict h1 h2]
  show Except.ok ((r : Int)).toNat = Except.ok r
  rw [Int.toNat_natCast]

theorem sha512_mk_ok (rng : Nat → Nat) (chk : Option (List Char))
    (salt : List Char) (r : Nat) (imp strict : Bool)
    (hlen : salt.length ≤ 16) (hr1 : 1000 ≤ r) (hr2 : r ≤ 999999999) :
    sha512_mk rng chk (some salt) (some r) imp strict = .ok ⟨chk, salt, r, imp⟩ := by
  unfold sha512_mk
  rw [norm_salt_in_range sha512_salt_cfg rng salt strict (by simp [sha512_salt_cfg])
    (by simpa [sha512_salt_cfg] using hlen)]
  rw [norm_rounds_nat_in_range sha512_rounds_cfg r strict
    (by simp [sha512_rounds_cfg]; omega) (by simp [sha512_rounds_cfg]; omega)]
  rfl

theorem digitCharL_isDigit : ∀ v < 10, (digitCharL v).isDigit = true := by decide

theorem natToBase10_isDigit (n : Nat) :
    ∀ c ∈ natToBase 10 n, c.isDigit = true := by
  intro c hc
  obtain ⟨v, hv⟩ := Option.isSome_iff_exists.1
    (natToBase_digits 10 (by omega) (by omega) n c hc)
  obtain ⟨hvb, hx⟩ := digVal_lt hv
  rw [← hexVal_digit_char hx (by omega)]
  exact digitCharL_isDigit v (by omega)

/-- Parsing a rendered explicit-rounds config string
`$6$rounds=<r>$<salt>$`. -/
theorem sha512_from_string_explicit_config (rng : Nat → Nat) (r : Nat)
    (salt : List Char) (hok : ∀ c ∈ salt, saltBad c = false)
    (hlen : salt.length ≤ 16) (hr1 : 1000 ≤ r) (hr2 : r ≤ 999999999) :
    sha512_from_string rng
        (cs "$6$rounds=" ++ (natToBase 10 r ++ '$' :: (salt ++ ['$']))) =
      .ok ⟨none, salt, r, false⟩ := by
  unfold sha512_from_string
  rw [if_neg (by simp [cs])]
  rw [sha512_parse_explicit (natToBase 10 r) (salt ++ ['$'])
    (natToBase_ne_nil 10 r (by omega)) (natToBase10_isDigit r)]
  rw [saltpart_config salt hok hlen]
  simp only
  rw [if_neg (natToBase_head 10 r (by omega) (by omega) (by omega))]
  rw [parseBase_natToBase 10 r (by omega) (by omega)]
  exact sha512_mk_ok rng none salt r false false hlen hr1 hr2

/-- Parsing a rendered explicit-rounds full hash
`$6$rounds=<r>$<salt>$<chk>`. -/
theorem sha512_from_string_explicit_hash (rng : Nat → Nat) (r : Nat)
    (salt chk : List Char) (hok : ∀ c ∈ salt, saltBad c = false)
    (hlen : salt.length ≤ 16) (hr1 : 1000 ≤ r) (hr2 : r ≤ 999999999)
    (hcl : chk.length = 86) (hcok : chk.all isH64Char = true) :
    sha512_from_string rng
        (cs "$6$rounds=" ++ (natToBase 10 r ++ '$' :: (salt ++ '$' :: chk))) =
      .ok ⟨some chk, salt, r, false⟩ := by
  unfold sha512_from_string
  rw [if_neg (by simp [cs])]
  rw [sha512_parse_explicit (natToBase 10 r) (salt ++ '$' :: chk)
    (natToBase_ne_nil 10 r (by omega)) (natToBase10_isDigit r)]
  rw [saltpart_hash salt chk hok hlen hcl hcok]
  simp only
  rw [if_neg (natToBase_head 10 r (by omega) (by omega) (by omega))]
  rw [parseBase_natToBase 10 r (by omega) (by omega)]
  exact sha512_mk_ok rng (some chk) salt r false true hlen hr1 hr2

/-- Parsing a rendered implicit-rounds config string `$6$<salt>$`. -/
theorem sha512_from_string_implicit_config (rng : Nat → Nat)
    (salt : List Char) (hok : ∀ c ∈ salt, saltBad c = false)
    (hlen : salt.length ≤ 16) (hnr : ¬ cs "rounds=" <+: salt) :
    sha512_from_string rng (cs "$6$" ++ (salt ++ ['$'])) =
      .ok ⟨none, salt, 5000, true⟩ := by
  unfold sha512_from_string
  rw [if_neg (by simp [cs])]
  rw [show salt ++ ['$'] = salt ++ '$' :: ([] : List Char) from rfl]
  rw [sha512_parse_fallback salt [] hnr]
  rw [saltpart_config salt hok hlen]
  simp only [Option.map_some']
  exact sha512_mk_ok rng none salt 5000 true false hlen (by omega) (by omega)

/-- Parsing a rendered implicit-rounds full hash `$6$<salt>$<chk>`. -/
theorem sha512_from_string_implicit_hash (rng : Nat → Nat)
    (salt chk : List Char) (hok : ∀ c ∈ salt, saltBad c = false)
    (hlen : salt.length ≤ 16) (hnr : ¬ cs "rounds=" <+: salt)
    (hcl : chk.length = 86) (hcok : chk.all isH64Char = true) :
    sha512_from_string rng (cs "$6$" ++ (salt ++ '$' :: chk)) =
      .ok ⟨some chk, salt, 5000, true⟩ := by
  unfold sha512_from_string
  rw [if_neg (by simp [cs])]
  rw [sha512_parse_fallback salt chk hnr]
  rw [saltpart_hash salt chk hok hlen hcl hcok]
  simp only [Option.map_some']
  exact sha512_mk_ok rng (some chk) salt 5000 true true hlen (by omega) (by omega)

/-- `to_string` on the implicit branch. -/
theorem sha512_to_string_implicit (chk : Option (List Char)) (salt : List Char) :
    sha512_to_string ⟨chk, salt, 5000, true⟩ =
      cs "$6$" ++ (salt ++ '$' :: chk.getD []) := by
  unfold sha512_to_string
  rw [if_pos ⟨rfl, rfl⟩]
  rw [List.append_assoc, List.append_assoc]
  rfl

/-- `to_string` on the explicit branch. -/
theorem sha512_to_string_explicit (chk : Option (List Char)) (salt : List Char)
    (r : Nat) (imp : Bool) (h : ¬(r = 5000 ∧ imp = true)) :
    sha512_to_string ⟨chk, salt, r, imp⟩ =
      cs "$6$rounds=" ++ (natToBase 10 r ++
        '$' :: (salt ++ '$' :: chk.getD [])) := by
  unfold sha512_to_string
  rw [if_neg h]
  rw [List.append_assoc, List.append_assoc, List.append_assoc,
    List.append_assoc]
  rfl

theorem sha512_genhash_of_from_string
    (raw : List Char → List Char → Nat → List Char × List Char × Nat)
    (rng : Nat → Nat) (secret config : List Char) (inst : Sha512Inst)
    (hfs : sha512_from_string rng config = .ok inst) :
    sha512_genhash raw rng secret config =
      .ok (sha512_to_string ⟨some (raw secret inst.salt inst.rounds).1,
        (raw secret inst.salt inst.rounds).2.1,
        (raw secret inst.salt inst.rounds).2.2, inst.implicit_rounds⟩) := by
  unfold sha512_genhash
  rw [hfs]
  rfl

theorem sha512_encrypt_eq
    (raw : List Char → List Char → Nat → List Char × List Char × Nat)
    (rng : Nat → Nat) (secret salt : List Char) (r : Nat) (imp : Bool)
    (hlen : salt.length ≤ 16) (hr1 : 1000 ≤ r) (hr2 : r ≤ 999999999) :
    sha512_encrypt raw rng secret (some salt) (some r) imp =
      sha512_genhash raw rng secret (sha512_to_string ⟨none, salt, r, imp⟩) := by
  unfold sha512_encrypt
  rw [sha512_mk_ok rng none salt r imp false hlen hr1 hr2]
  rfl

theorem sha512_verify_eq
    (raw : List Char → List Char → Nat → List Char × List Char × Nat)
    (rng : Nat → Nat) (secret hash out : List Char)
    (hgh : sha512_genhash raw rng secret hash = .ok out) :
    sha512_verify raw rng secret hash = .ok (hash == out) := by
  unfold sha512_verify
  rw [hgh]
  rfl

theorem append_cons_right_inj {pre mid : List Char} {c : Char}
    {a b : List Char} (h : pre ++ (mid ++ c :: a) = pre ++ (mid ++ c :: b)) :
    a = b := by
  have h1 := List.append_cancel_left h
  have h2 := List.append_cancel_left h1
  injection h2 with h3 h4

/-- The encrypt/verify round trip of `sha512_crypt`, with the digest kernel
`raw` opaque: well-formed settings encrypt to a hash that the same secret
verifies, and a secret with a different computed checksum fails to verify. -/
theorem sha512_encrypt_verify
    (raw : List Char → List Char → Nat → List Char × List Char × Nat)
    (rng : Nat → Nat) (secret secret' salt : List Char) (r : Nat) (imp : Bool)
    (hok : ∀ c ∈ salt, saltBad c = false) (hlen : salt.length ≤ 16)
    (hnr : ¬ cs "rounds=" <+: salt)
    (hr1 : 1000 ≤ r) (hr2 : r ≤ 999999999)
    (hrs : (raw secret salt r).2 = (salt, r))
    (hcl : (raw secret salt r).1.length = 86)
    (hcok : (raw secret salt r).1.all isH64Char = true)
    (hrs' : (raw secret' salt r).2 = (salt, r))
    (hne : (raw secret' salt r).1 ≠ (raw secret salt r).1) :
    ∃ H, sha512_encrypt raw rng secret (some salt) (some r) imp = .ok H ∧
      sha512_verify raw rng secret H = .ok true ∧
      sha512_verify raw rng secret' H = .ok false := by
  have hs1 : (raw secret salt r).2.1 = salt := by rw [hrs]
  have hs2 : (raw secret salt r).2.2 = r := by rw [hrs]
  have hs1' : (raw secret' salt r).2.1 = salt := by rw [hrs']
  have hs2' : (raw secret' salt r).2.2 = r := by rw [hrs']
  by_cases hcase : r = 5000 ∧ imp = true
  · obtain ⟨h5, hi⟩ := hcase
    subst h5
    subst hi
    refine ⟨cs "$6$" ++ (salt ++ '$' :: (raw secret salt 5000).1), ?_, ?_, ?_⟩
    · rw [sha512_encrypt_eq raw rng secret salt 5000 true hlen hr1 hr2]
      rw [sha512_to_string_implicit none salt]
      simp only [Option.getD_none]
      rw [sha512_genhash_of_from_string raw rng secret _ ⟨none, salt, 5000, true⟩
        (sha512_from_string_implicit_config rng salt hok hlen hnr)]
      dsimp only
      rw [hs1, hs2]
      rw [sha512_to_string_implicit (some (raw secret salt 5000).1) salt]
      simp only [Option.getD_some]
    · rw [sha512_verify_eq raw rng secret _
        (cs "$6$" ++ (salt ++ '$' :: (raw secret salt 5000).1)) ?hg]
      · simp
      case hg =>
        rw [sha512_genhash_of_from_string raw rng secret _
          ⟨some (raw secret salt 5000).1, salt, 5000, true⟩
          (sha512_from_string_implicit_hash rng salt _ hok hlen hnr hcl hcok)]
        dsimp only
        rw [hs1, hs2]
        rw [sha512_to_string_implicit (some (raw secret salt 5000).1) salt]
        simp only [Option.getD_some]
    · rw [sha512_verify_eq raw rng secret' _
        (cs "$6$" ++ (salt ++ '$' :: (raw secret' salt 5000).1)) ?hg2]
      · refine congrArg Except.ok ?_
        rw [beq_eq_false_iff_ne]
        intro he
        exact hne (append_cons_right_inj he.symm)
      case hg2 =>
        rw [sha512_genhash_of_from_string raw rng secret' _
          ⟨some (raw secret salt 5000).1, salt, 5000, true⟩
          (sha512_from_string_implicit_hash rng salt _ hok hlen hnr hcl hcok)]
        dsimp only
        rw [hs1', hs2']
        rw [sha512_to_string_implicit (some (raw secret' salt 5000).1) salt]
        simp only [Option.getD_some]
  · refine ⟨cs "$6$rounds=" ++ (natToBase 10 r ++
      '$' :: (salt ++ '$' :: (raw secret salt r).1)), ?_, ?_, ?_⟩
    · rw [sha512_encrypt_eq raw rng secret salt r imp hlen hr1 hr2]
      rw [sha512_to_string_explicit none salt r imp hcase]
      simp only [Option.getD_none]
      rw [sha512_genhash_of_from_string raw rng secret _ ⟨none, salt, r, false⟩
        (sha512_from_string_explicit_config rng r salt hok hlen hr1 hr2)]
      dsimp only
      rw [hs1, hs2]
      rw [sha512_to_string_explicit (some (raw secret salt r).1) salt r false
        (by simp)]
      simp only [Option.getD_some]
    · rw [sha512_verify_eq raw rng secret _
        (cs "$6$rounds=" ++ (natToBase 10 r ++
          '$' :: (salt ++ '$' :: (raw secret salt r).1))) ?hg3]
      · simp
      case hg3 =>
        rw [sha512_genhash_of_from_string raw rng secret _
          ⟨some (raw secret salt r).1, salt, r, false⟩
          (sha512_from_string_explicit_hash rng r salt _ hok hlen hr1 hr2 hcl hcok)]
        dsimp only
        rw [hs1, hs2]
        rw [sha512_to_string_explicit (some (raw secret salt r).1) salt r false
          (by simp)]
        simp only [Option.getD_some]
    · rw [sha512_verify_eq raw rng secret' _
        (cs "$6$rounds=" ++ (natToBase 10 r ++
          '$' :: (salt ++ '$' :: (raw secret' salt r).1))) ?hg4]
      · refine congrArg Except.ok ?_
        rw [beq_eq_false_iff_ne]
        intro he
        have he2 := List.append_cancel_left he.symm
        have he3 := List.append_cancel_left he2
        injection he3 with hh1 hh2
        have he4 := List.append_cancel_left hh2
        injection he4 with hh3 hh4
        exact hne hh4
      case hg4 =>
        rw [sha512_genhash_of_from_string raw rng secret' _
          ⟨some (raw secret salt r).1, salt, r, false⟩
          (sha512_from_string_explicit_hash rng r salt _ hok hlen hr1 hr2 hcl hcok)]
        dsimp only
        rw [hs1', hs2']
        rw [sha512_to_string_explicit (some (raw secret' salt r).1) salt r false
          (by simp)]
        simp only [Option.getD_some]

theorem norm_rounds_relaxed_clamp (cfg : RoundsCfg) (r : Int)
    (hsb : cfg.strict_rounds_bounds = false)
    (hmm : cfg.min_rounds ≤ cfg.max_rounds) :
    norm_rounds cfg (some r) false =
      .ok (min cfg.max_rounds (max cfg.min_rounds r)) := by
  unfold norm_rounds
  dsimp only
  rw [hsb]
  by_cases h1 : r < cfg.min_rounds
  · rw [if_pos h1, if_neg (by simp)]
    simp only
    rw [if_neg (by omega)]
    refine congrArg Except.ok ?_
    omega
  · rw [if_neg h1]
    simp only
    by_cases h2 : r > cfg.max_rounds
    · rw [if_pos h2, if_neg (by simp)]
      refine congrArg Except.ok ?_
      omega
    · rw [if_neg h2]
      refine congrArg Except.ok ?_
      omega

theorem norm_rounds_strict_out (cfg : RoundsCfg) (r : Int)
    (h : r < cfg.min_rounds ∨ r > cfg.max_rounds)
    (hmm : cfg.min_rounds ≤ cfg.max_rounds) :
    ∃ e, norm_rounds cfg (some r) true = .error e := by
  unfold norm_rounds
  dsimp only
  simp only [Bool.true_or]
  rcases h with h | h
  · rw [if_pos h, if_pos trivial]
    exact ⟨_, rfl⟩
  · rw [if_neg (by omega)]
    simp only
    rw [if_pos h, if_pos trivial]
    exact ⟨_, rfl⟩

theorem norm_rounds_nat_relaxed_sha512 (r : Nat) :
    norm_rounds_nat sha512_rounds_cfg (some r) false =
      .ok (min 999999999 (max 1000 r)) := by
  unfold norm_rounds_nat
  show (norm_rounds sha512_rounds_cfg (some ((r : Int))) false).map Int.toNat = _
  rw [norm_rounds_relaxed_clamp sha512_rounds_cfg r rfl (by norm_num [sha512_rounds_cfg])]
  show Except.ok (Int.toNat (min sha512_rounds_cfg.max_rounds
    (max sha512_rounds_cfg.min_rounds (r : Int)))) = _
  refine congrArg Except.ok ?_
  show Int.toNat (min 999999999 (max 1000 (r : Int))) = min 999999999 (max 1000 r)
  omega

theorem norm_rounds_nat_strict_out_sha512 (r : Nat)
    (h : r < 1000 ∨ r > 999999999) :
    ∃ e, norm_rounds_nat sha512_rounds_cfg (some r) true = .error e := by
  unfold norm_rounds_nat
  obtain ⟨e, he⟩ := norm_rounds_strict_out sha512_rounds_cfg r (by
    rcases h with h | h
    · exact Or.inl (show (r : Int) < 1000 by exact_mod_cast h)
    · exact Or.inr (show (r : Int) > 999999999 by exact_mod_cast h))
    (by norm_num [sha512_rounds_cfg])
  refine ⟨e, ?_⟩
  show (norm_rounds sha512_rounds_cfg (some ((r : Int))) true).map Int.toNat = _
  rw [he]
  rfl

theorem sha512_mk_rounds_error (rng : Nat → Nat) (chk : Option (List Char))
    (salt : List Char) (r : Nat) (imp : Bool) (hlen : salt.length ≤ 16)
    (hout : r < 1000 ∨ r > 999999999) :
    ∃ e, sha512_mk rng chk (some salt) (some r) imp true = .error e := by
  obtain ⟨e, he⟩ := norm_rounds_nat_strict_out_sha512 r hout
  refine ⟨e, ?_⟩
  unfold sha512_mk
  rw [norm_salt_in_range sha512_salt_cfg rng salt true (by simp [sha512_salt_cfg])
    (by simpa [sha512_salt_cfg] using hlen), he]
  rfl

theorem sha512_mk_clamp (rng : Nat → Nat) (chk : Option (List Char))
    (salt : List Char) (r : Nat) (imp : Bool) (hlen : salt.length ≤ 16) :
    sha512_mk rng chk (some salt) (some r) imp false =
      .ok ⟨chk, salt, min 999999999 (max 1000 r), imp⟩ := by
  unfold sha512_mk
  rw [norm_salt_in_range sha512_salt_cfg rng salt false (by simp [sha512_salt_cfg])
    (by simpa [sha512_salt_cfg] using hlen), norm_rounds_nat_relaxed_sha512 r]
  rfl

/-- Out-of-range explicit rounds on a full hash: strict construction fails. -/
theorem sha512_from_string_hash_out_of_range (rng : Nat → Nat) (r : Nat)
    (salt chk : List Char) (hok : ∀ c ∈ salt, saltBad c = false)
    (hlen : salt.length ≤ 16) (hr0 : 1 ≤ r)
    (hout : r < 1000 ∨ r > 999999999)
    (hcl : chk.length = 86) (hcok : chk.all isH64Char = true) :
    ∃ e, sha512_from_string rng
        (cs "$6$rounds=" ++ (natToBase 10 r ++ '$' :: (salt ++ '$' :: chk))) =
      .error e := by
  unfold sha512_from_string
  rw [if_neg (by simp [cs])]
  rw [sha512_parse_explicit (natToBase 10 r) (salt ++ '$' :: chk)
    (natToBase_ne_nil 10 r (by omega)) (natToBase10_isDigit r)]
  rw [saltpart_hash salt chk hok hlen hcl hcok]
  simp only
  rw [if_neg (natToBase_head 10 r (by omega) (by omega) (by omega))]
  rw [parseBase_natToBase 10 r (by omega) (by omega)]
  exact sha512_mk_rounds_error rng (some chk) salt r false hlen hout

/-- Out-of-range explicit rounds on a config string: relaxed construction
clamps. -/
theorem sha512_from_string_config_out_of_range (rng : Nat → Nat) (r : Nat)
    (salt : List Char) (hok : ∀ c ∈ salt, saltBad c = false)
    (hlen : salt.length ≤ 16) (hr0 : 1 ≤ r) :
    sha512_from_string rng
        (cs "$6$rounds=" ++ (natToBase 10 r ++ '$' :: (salt ++ ['$']))) =
      .ok ⟨none, salt, min 999999999 (max 1000 r), false⟩ := by
  unfold sha512_from_string
  rw [if_neg (by simp [cs])]
  rw [sha512_parse_explicit (natToBase 10 r) (salt ++ ['$'])
    (natToBase_ne_nil 10 r (by omega)) (natToBase10_isDigit r)]
  rw [saltpart_config salt hok hlen]
  simp only
  rw [if_neg (natToBase_head 10 r (by omega) (by omega) (by omega))]
  rw [parseBase_natToBase 10 r (by omega) (by omega)]
  exact sha512_mk_clamp rng none salt r false hlen

/-- Zero-padded rounds token: `from_string` always raises, whatever follows. -/
theorem sha512_zero_padded_rejected (rng : Nat → Nat) (tok rest : List Char)
    (hne : tok ≠ []) (hdig : ∀ c ∈ tok, c.isDigit = true)
    (h0 : tok.head? = some '0') :
    ∃ e, sha512_from_string rng (cs "$6$rounds=" ++ (tok ++ '$' :: rest)) =
      .error e := by
  unfold sha512_from_string
  rw [if_neg (by simp [cs])]
  rw [sha512_parse_explicit tok rest hne hdig]
  cases hsp : sha512_saltpart rest with
  | none => exact ⟨_, rfl⟩
  | some p =>
    obtain ⟨salt, chk⟩ := p
    simp only
    rw [if_pos h0]
    exact ⟨_, rfl⟩

theorem natToBase_10000 : natToBase 10 10000 = cs "10000" :=
  natToBase_parseBase 10 (by omega) (by omega) (cs "10000") (by decide)
    (by decide) (by decide) 10000 (by decide)

/-- C4: `sha512_crypt.to_string` renders without a `rounds=` field exactly
when the instance's rounds equal 5000 and its `implicit_rounds` flag is set
(and otherwise emits `rounds=<n>`); `genconfig(salt, rounds=5000,
implicit_rounds=True)` yields `$6$<salt>$` with no rounds field while
`genconfig(salt, rounds=10000, implicit_rounds=True)` yields
`$6$rounds=10000$<salt>$`; and `from_string` on a string with no rounds
field yields rounds 5000 with `implicit_rounds` set. -/
theorem sha512_rounds_field_spec (rng : Nat → Nat) (inst : Sha512Inst)
    (s salt chkh : List Char)
    (hs_ok : ∀ c ∈ s, saltBad c = false) (hs_len : s.length ≤ 16)
    (hok : ∀ c ∈ salt, saltBad c = false) (hlen : salt.length ≤ 16)
    (hnr : ¬ cs "rounds=" <+: salt)
    (hcl : chkh.length = 86) (hcok : chkh.all isH64Char = true) :
    (inst.rounds = 5000 ∧ inst.implicit_rounds = true →
      sha512_to_string inst =
        cs "$6$" ++ (inst.salt ++ '$' :: inst.checksum.getD [])) ∧
    (¬(inst.rounds = 5000 ∧ inst.implicit_rounds = true) →
      sha512_to_string inst = cs "$6$rounds=" ++ (natToBase 10 inst.rounds ++
        '$' :: (inst.salt ++ '$' :: inst.checksum.getD []))) ∧
    (sha512_genconfig rng (some s) (some 5000) true =
      .ok (cs "$6$" ++ (s ++ ['$']))) ∧
    (sha512_genconfig rng (some s) (some 10000) true =
      .ok (cs "$6$rounds=10000$" ++ (s ++ ['$']))) ∧
    (sha512_from_string rng (cs "$6$" ++ (salt ++ ['$'])) =
      .ok ⟨none, salt, 5000, true⟩) ∧
    (sha512_from_string rng (cs "$6$" ++ (salt ++ '$' :: chkh)) =
      .ok ⟨some chkh, salt, 5000, true⟩) := by
  refine ⟨?_, ?_, ?_, ?_,
    sha512_from_string_implicit_config rng salt hok hlen hnr,
    sha512_from_string_implicit_hash rng salt chkh hok hlen hnr hcl hcok⟩
  · rintro ⟨h5, hi⟩
    obtain ⟨chk, sl, r, im⟩ := inst
    have h5' : r = 5000 := h5
    have hi' : im = true := hi
    subst h5'
    subst hi'
    exact sha512_to_string_implicit chk sl
  · intro h
    obtain ⟨chk, sl, r, im⟩ := inst
    exact sha512_to_string_explicit chk sl r im h
  · unfold sha512_genconfig
    rw [sha512_mk_ok rng none s 5000 true false hs_len (by omega) (by omega)]
    show Except.ok (sha512_to_string ⟨none, s, 5000, true⟩) = _
    rw [sha512_to_string_implicit none s]
    rfl
  · unfold sha512_genconfig
    rw [sha512_mk_ok rng none s 10000 true false hs_len (by omega) (by omega)]
    show Except.ok (sha512_to_string ⟨none, s, 10000, true⟩) = _
    rw [sha512_to_string_explicit none s 10000 true (by simp)]
    rw [natToBase_10000]
    rfl

theorem sha512_rounds_field_spec_witness :
    ((∀ c ∈ cs "abcd", saltBad c = false) ∧ (cs "abcd").length ≤ 16) ∧
    sha512_genconfig (fun _ => 0) (some (cs "abcd")) (some 10000) true =
      .ok (cs "$6$rounds=10000$" ++ (cs "abcd" ++ ['$'])) :=
  ⟨⟨by decide, by decide⟩,
    (sha512_rounds_field_spec (fun _ => 0) ⟨none, [], 5000, true⟩ (cs "abcd")
      (cs "aa") (List.replicate 86 '.') (by decide) (by decide) (by decide)
      (by decide) (by decide) (by decide) (by decide)).2.2.2.1⟩

/-- C9: `sha512_crypt.from_string` normalizes strictly exactly when the
string carries a checksum: a full hash with rounds outside
`[1000, 999999999]` raises, while the corresponding config string with the
same rounds is accepted with the rounds clamped into range. -/
theorem sha512_strict_iff_checksum (rng : Nat → Nat) (r : Nat)
    (salt chk : List Char) (hok : ∀ c ∈ salt, saltBad c = false)
    (hlen : salt.length ≤ 16) (hr0 : 1 ≤ r)
    (hout : r < 1000 ∨ r > 999999999)
    (hcl : chk.length = 86) (hcok : chk.all isH64Char = true) :
    (∃ e, sha512_from_string rng
        (cs "$6$rounds=" ++ (natToBase 10 r ++ '$' :: (salt ++ '$' :: chk))) =
      .error e) ∧
    (sha512_from_string rng
        (cs "$6$rounds=" ++ (natToBase 10 r ++ '$' :: (salt ++ ['$']))) =
      .ok ⟨none, salt, min 999999999 (max 1000 r), false⟩) ∧
    1000 ≤ min 999999999 (max 1000 r) ∧
    min 999999999 (max 1000 r) ≤ 999999999 :=
  ⟨sha512_from_string_hash_out_of_range rng r salt chk hok hlen hr0 hout hcl hcok,
    sha512_from_string_config_out_of_range rng r salt hok hlen hr0,
    by omega, by omega⟩

theorem sha512_strict_iff_checksum_witness :
    ((1 : Nat) ≤ 500 ∧ (500 < 1000 ∨ 500 > 999999999)) ∧
    (∃ e, sha512_from_string (fun _ => 0)
        (cs "$6$rounds=" ++ (natToBase 10 500 ++
          '$' :: (cs "aa" ++ '$' :: List.replicate 86 '.'))) = .error e) :=
  ⟨⟨by decide, by decide⟩,
    (sha512_strict_iff_checksum (fun _ => 0) 500 (cs "aa")
      (List.replicate 86 '.') (by decide) (by decide) (by decide)
      (by decide) (by decide) (by decide)).1⟩

/-- C10: `sha512_crypt.identify` returns true exactly when the hash is
non-empty and begins with `$6$`; consequently there are strings (a
zero-padded rounds field) that `identify` accepts but `from_string`
rejects. -/
theorem sha512_identify_spec (rng : Nat → Nat) :
    (∀ s, sha512_identify s = true ↔ (s ≠ [] ∧ cs "$6$" <+: s)) ∧
    (sha512_identify (cs "$6$rounds=010$aa") = true ∧
      ∃ e, sha512_from_string rng (cs "$6$rounds=010$aa") = .error e) := by
  refine ⟨?_, by decide, ?_⟩
  · intro s
    simp [sha512_identify, List.isPrefixOf_iff_prefix, List.isEmpty_iff]
  · exact sha512_zero_padded_rejected rng (cs "010") (cs "aa") (by decide)
      (by decide) (by decide)

/-! ## The mc3 field grammar

The pbkdf2 handlers in src/passlib/handlers/pbkdf2.py call `uh.parse_mc3`
and `uh.render_mc3` from a utils module that is not under `src/`.  They are
modelled from the spec (§4.2 FieldGrammar, §6 hash string grammar). -/

/-- Modelled from the spec: parsing of the rounds token of an mc3 string —
an absent (empty) token takes the scheme's implicit default if there is one,
a zero-padded token (`"010"` style, leading `'0'`) is malformed, otherwise
the token is read as a number in the scheme's rounds base. -/
def parseRounds (base : Nat) (dflt : Option Nat) (tok : List Char) :
    Except String Nat :=
  if tok = [] then
    match dflt with
    | some d => .ok d
    | none => .error "empty rounds field"
  else if tok.head? = some '0' then .error "zero-padded rounds"
  else
    match parseBase base tok with
    | some n => .ok n
    | none => .error "invalid rounds"

/-- Modelled from the spec: `parse_mc3` — check the ident prefix, split the
remainder on the separator into `rounds`/`salt`[/`checksum`] fields (an
absent checksum field still parses, as a config result; an empty checksum
token counts as absent), and read the rounds token. -/
def parse_mc3 (ident : List Char) (sep : Char) (roundsBase : Nat)
    (defaultRounds : Option Nat) (s : List Char) :
    Except String (Nat × List Char × Option (List Char)) :=
  if ident.isPrefixOf s then
    match (s.drop ident.length).splitOn sep with
    | [rtok, salt, chk] =>
      match parseRounds roundsBase defaultRounds rtok with
      | .ok r => .ok (r, salt, if chk = [] then none else some chk)
      | .error e => .error e
    | [rtok, salt] =>
      match parseRounds roundsBase defaultRounds rtok with
      | .ok r => .ok (r, salt, none)
      | .error e => .error e
    | _ => .error "malformed hash"
  else .error "invalid ident"

/-- Modelled from the spec: `render_mc3` — the ident, the rounds token
(empty when the rounds are omitted), the separator, the salt, and the
separator plus checksum when a checksum is present. -/
def render_mc3 (ident : List Char) (sep : Char) (roundsBase : Nat)
    (rounds : Option Nat) (salt : List Char) (chk : Option (List Char)) :
    List Char :=
  let rtok := match rounds with
    | none => []
    | some n => natToBase roundsBase n
  match chk with
  | some c => ident ++ (rtok ++ sep :: (salt ++ sep :: c))
  | none => ident ++ (rtok ++ sep :: salt)

/-! ### splitOn lemmas -/

theorem splitOn_two (sep : Char) (a b : List Char) (ha : sep ∉ a)
    (hb : sep ∉ b) : (a ++ sep :: b).splitOn sep = [a, b] := by
  unfold List.splitOn
  rw [List.splitOnP_first _ a
    (fun y hy => by simp only [beq_iff_eq]; exact fun h => ha (h ▸ hy))
    sep (by simp) b]
  rw [List.splitOnP_eq_single _ _
    (fun y hy => by simp only [beq_iff_eq]; exact fun h => hb (h ▸ hy))]

theorem splitOn_three (sep : Char) (a b c : List Char) (ha : sep ∉ a)
    (hb : sep ∉ b) (hc : sep ∉ c) :
    (a ++ sep :: (b ++ sep :: c)).splitOn sep = [a, b, c] := by
  unfold List.splitOn
  rw [List.splitOnP_first _ a
    (fun y hy => by simp only [beq_iff_eq]; exact fun h => ha (h ▸ hy))
    sep (by simp) (b ++ sep :: c)]
  rw [List.splitOnP_first _ b
    (fun y hy => by simp only [beq_iff_eq]; exact fun h => hb (h ▸ hy))
    sep (by simp) c]
  rw [List.splitOnP_eq_single _ _
    (fun y hy => by simp only [beq_iff_eq]; exact fun h => hc (h ▸ hy))]

theorem natToBase_not_sep (base n : Nat) (sep : Char) (hb2 : 2 ≤ base)
    (hb16 : base ≤ 16) (hsep : hexVal sep = none) :
    sep ∉ natToBase base n := by
  intro hmem
  obtain ⟨v, hv⟩ := Option.isSome_iff_exists.1
    (natToBase_digits base hb2 hb16 n sep hmem)
  rw [(digVal_lt hv).2] at hsep
  exact Option.noConfusion hsep

/-- Parsing a rendered mc3 hash string with an explicit rounds token. -/
theorem parse_mc3_render (ident : List Char) (sep : Char) (base : Nat)
    (dflt : Option Nat) (r : Nat) (salt chk : List Char)
    (hb2 : 2 ≤ base) (hb16 : base ≤ 16) (hr : 1 ≤ r)
    (hsep : hexVal sep = none) (hs : sep ∉ salt) (hc : sep ∉ chk)
    (hcne : chk ≠ []) :
    parse_mc3 ident sep base dflt
        (render_mc3 ident sep base (some r) salt (some chk)) =
      .ok (r, salt, some chk) := by
  unfold render_mc3 parse_mc3
  dsimp only
  rw [if_pos (List.isPrefixOf_iff_prefix.2 (List.prefix_append _ _))]
  have hdrop := List.drop_left ident
    (natToBase base r ++ sep :: (salt ++ sep :: chk))
  rw [hdrop]
  rw [splitOn_three sep _ _ _ (natToBase_not_sep base r sep hb2 hb16 hsep) hs hc]
  dsimp only
  unfold parseRounds
  rw [if_neg (natToBase_ne_nil base r hb2)]
  rw [if_neg (natToBase_head base r hb2 hb16 (by omega))]
  rw [parseBase_natToBase base r hb2 hb16]
  rw [if_neg hcne]

/-- Parsing a rendered mc3 hash string with the rounds field omitted, for a
scheme with an implicit default. -/
theorem parse_mc3_render_none (ident : List Char) (sep : Char) (base : Nat)
    (d : Nat) (salt chk : List Char) (hs : sep ∉ salt) (hc : sep ∉ chk)
    (hcne : chk ≠ []) :
    parse_mc3 ident sep base (some d)
        (render_mc3 ident sep base none salt (some chk)) =
      .ok (d, salt, some chk) := by
  unfold render_mc3 parse_mc3
  dsimp only
  rw [if_pos (List.isPrefixOf_iff_prefix.2 (List.prefix_append _ _))]
  have hdrop := List.drop_left ident ([] ++ sep :: (salt ++ sep :: chk))
  rw [hdrop]
  rw [splitOn_three sep [] salt chk (by simp) hs hc]
  dsimp only
  unfold parseRounds
  rw [if_pos rfl]
  rw [if_neg hcne]

/-! ## The mc3 handler family (the pbkdf2 handlers of
src/passlib/handlers/pbkdf2.py)

A handler instance holds checksum/salt/rounds (the `BaseSRHandler`
attributes), generically in the salt/checksum element type: bytes for
`pbkdf2_{digest}`/`cta`/`grub`, characters for `dlitz`.  The salt and
checksum codecs (`ab64`, base64-with-altchars, hex, identity) are passed in
as encode/decode functions; the `pbkdf2` kernel is passed in as an opaque
`calc_checksum` function, as the spec keeps the KDF kernels external. -/

structure Mc3Inst (α : Type) where
  checksum : Option (List α)
  salt : List α
  rounds : Nat

/-- `BaseSRHandler.__init__` for an mc3 handler (normalize salt, then
rounds). -/
def mc3_mk {α : Type} [Inhabited α] (rcfg : RoundsCfg) (scfg : SaltCfg α)
    (rng : Nat → Nat) (chk : Option (List α)) (salt : Option (List α))
    (rounds : Option Nat) (strict : Bool) : Except String (Mc3Inst α) := do
  let s ← norm_salt scfg rng salt strict
  let r ← norm_rounds_nat rcfg rounds strict
  .ok ⟨chk, s, r⟩

/-- The common `from_string` of the pbkdf2 handlers: `parse_mc3`, decode the
salt and checksum tokens, construct the instance
(src/passlib/handlers/pbkdf2.py lines 65-71, 221-228, 322-326, 463-470). -/
def mc3_from_string {α : Type} [Inhabited α] (ident : List Char) (sep : Char)
    (base : Nat) (dflt : Option Nat) (decS decC : List Char → Option (List α))
    (rcfg : RoundsCfg) (scfg : SaltCfg α) (rng : Nat → Nat) (s : List Char) :
    Except String (Mc3Inst α) := do
  let (r, saltTok, chkTok) ← parse_mc3 ident sep base dflt s
  let salt ← match decS saltTok with
    | some x => Except.ok x
    | none => Except.error "invalid salt encoding"
  let chk ← match chkTok with
    | none => Except.ok (none : Option (List α))
    | some t =>
      match decC t with
      | some x => Except.ok (some x)
      | none => Except.error "invalid checksum encoding"
  mc3_mk rcfg scfg rng chk (some salt) (some r) false

/-- The common `to_string` of the pbkdf2 handlers: encode the salt and the
checksum (when present and `withchk`) and render
(src/passlib/handlers/pbkdf2.py lines 73-79, 230-236, 472-478). -/
def mc3_to_string {α : Type} (ident : List Char) (sep : Char) (base : Nat)
    (encS encC : List α → List Char) (withchk : Bool) (self : Mc3Inst α) :
    List Char :=
  render_mc3 ident sep base (some self.rounds) (encS self.salt)
    (match self.checksum with
     | some c => if withchk then some (encC c) else none
     | none => none)

/-- `BaseSRHandler.encrypt` when the handler provides `calc_checksum`
(src/passlib/utils/handlers.py lines 526-534). -/
def mc3_encrypt {α : Type} [Inhabited α] (ident : List Char) (sep : Char)
    (base : Nat) (encS encC : List α → List Char) (rcfg : RoundsCfg)
    (scfg : SaltCfg α) (calcC : List Char → List α → Nat → List α)
    (rng : Nat → Nat) (secret : List Char) (salt : Option (List α))
    (rounds : Option Nat) : Except String (List Char) := do
  let self ← mc3_mk rcfg scfg rng none salt rounds false
  .ok (mc3_to_string ident sep base encS encC true
    ⟨some (calcC secret self.salt self.rounds), self.salt, self.rounds⟩)

/-- `BaseSRHandler.verify` when the handler provides `calc_checksum`
(src/passlib/utils/handlers.py lines 536-544): parse the hash and compare
the stored checksum with the recomputed one. -/
def mc3_verify {α : Type} [Inhabited α] [DecidableEq α] (ident : List Char)
    (sep : Char) (base : Nat) (dflt : Option Nat)
    (decS decC : List Char → Option (List α)) (rcfg : RoundsCfg)
    (scfg : SaltCfg α) (calcC : List Char → List α → Nat → List α)
    (rng : Nat → Nat) (secret hash : List Char) : Except String Bool := do
  let self ← mc3_from_string ident sep base dflt decS decC rcfg scfg rng hash
  .ok (self.checksum == some (calcC secret self.salt self.rounds))

theorem except_bind_ok {ε α β : Type} (a : α) (f : α → Except ε β) :
    (Except.ok a : Except ε α) >>= f = f a := rfl

theorem mc3_mk_ok {α : Type} [Inhabited α] (rcfg : RoundsCfg)
    (scfg : SaltCfg α) (rng : Nat → Nat) (chk : Option (List α))
    (salt : List α) (r : Nat) (strict : Bool)
    (h1 : scfg.min_salt_chars ≤ salt.length)
    (h2 : salt.length ≤ scfg.max_salt_chars)
    (h3 : rcfg.min_rounds ≤ (r : Int)) (h4 : (r : Int) ≤ rcfg.max_rounds) :
    mc3_mk rcfg scfg rng chk (some salt) (some r) strict = .ok ⟨chk, salt, r⟩ := by
  unfold mc3_mk
  rw [norm_salt_in_range scfg rng salt strict h1 h2,
    norm_rounds_nat_in_range rcfg r strict h3 h4]
  rfl

/-- The encrypt/verify round trip of an mc3 handler with `calc_checksum`,
with the KDF kernel and the salt/checksum codecs opaque. -/
theorem mc3_encrypt_verify {α : Type} [Inhabited α] [DecidableEq α]
    (ident : List Char) (sep : Char) (base : Nat) (dflt : Option Nat)
    (encS encC : List α → List Char) (decS decC : List Char → Option (List α))
    (rcfg : RoundsCfg) (scfg : SaltCfg α)
    (calcC : List Char → List α → Nat → List α) (rng : Nat → Nat)
    (secret secret' : List Char) (salt : List α) (r : Nat)
    (hb2 : 2 ≤ base) (hb16 : base ≤ 16) (hsep : hexVal sep = none)
    (hr1 : 1 ≤ r)
    (hrmin : rcfg.min_rounds ≤ (r : Int)) (hrmax : (r : Int) ≤ rcfg.max_rounds)
    (hsmin : scfg.min_salt_chars ≤ salt.length)
    (hsmax : salt.length ≤ scfg.max_salt_chars)
    (hdecS : decS (encS salt) = some salt) (hsS : sep ∉ encS salt)
    (hdecC : decC (encC (calcC secret salt r)) = some (calcC secret salt r))
    (hsC : sep ∉ encC (calcC secret salt r))
    (hCne : encC (calcC secret salt r) ≠ []) :
    ∃ H, mc3_encrypt ident sep base encS encC rcfg scfg calcC rng secret
        (some salt) (some r) = .ok H ∧
      mc3_verify ident sep base dflt decS decC rcfg scfg calcC rng secret H
        = .ok true ∧
      (calcC secret' salt r ≠ calcC secret salt r →
        mc3_verify ident sep base dflt decS decC rcfg scfg calcC rng secret' H
          = .ok false) := by
  refine ⟨render_mc3 ident sep base (some r) (encS salt)
    (some (encC (calcC secret salt r))), ?_, ?_, ?_⟩
  · unfold mc3_encrypt
    rw [mc3_mk_ok rcfg scfg rng none salt r false hsmin hsmax hrmin hrmax]
    rfl
  · unfold mc3_verify mc3_from_string
    rw [parse_mc3_render ident sep base dflt r (encS salt)
      (encC (calcC secret salt r)) hb2 hb16 hr1 hsep hsS hsC hCne]
    dsimp only [except_bind_ok]
    rw [hdecS]
    dsimp only [except_bind_ok]
    rw [hdecC]
    dsimp only [except_bind_ok]
    rw [mc3_mk_ok rcfg scfg rng (some (calcC secret salt r)) salt r false
      hsmin hsmax hrmin hrmax]
    dsimp only [except_bind_ok]
    refine congrArg Except.ok ?_
    simp
  · intro hne
    unfold mc3_verify mc3_from_string
    rw [parse_mc3_render ident sep base dflt r (encS salt)
      (encC (calcC secret salt r)) hb2 hb16 hr1 hsep hsS hsC hCne]
    dsimp only [except_bind_ok]
    rw [hdecS]
    dsimp only [except_bind_ok]
    rw [hdecC]
    dsimp only [except_bind_ok]
    rw [mc3_mk_ok rcfg scfg rng (some (calcC secret salt r)) salt r false
      hsmin hsmax hrmin hrmax]
    dsimp only [except_bind_ok]
    refine congrArg Except.ok ?_
    rw [beq_eq_false_iff_ne]
    intro he
    injection he with he2
    exact hne he2.symm

theorem except_bind_error {ε α β : Type} (e : ε) (f : α → Except ε β) :
    (Except.error e : Except ε α) >>= f = Except.error e := rfl

/-- Parsing a token-form mc3 hash string (explicit tokens instead of a
rendered numeral). -/
theorem parse_mc3_tokens (ident : List Char) (sep : Char) (base : Nat)
    (dflt : Option Nat) (tr salt chk : List Char) (rv : Nat)
    (htne : tr ≠ []) (h0 : tr.head? ≠ some '0')
    (hrv : parseBase base tr = some rv) (hts : sep ∉ tr) (hss : sep ∉ salt)
    (hcs : sep ∉ chk) (hcne : chk ≠ []) :
    parse_mc3 ident sep base dflt (ident ++ (tr ++ sep :: (salt ++ sep :: chk)))
      = .ok (rv, salt, some chk) := by
  unfold parse_mc3
  rw [if_pos (List.isPrefixOf_iff_prefix.2 (List.prefix_append _ _))]
  have hdrop := List.drop_left ident (tr ++ sep :: (salt ++ sep :: chk))
  rw [hdrop]
  rw [splitOn_three sep tr salt chk hts hss hcs]
  dsimp only
  unfold parseRounds
  rw [if_neg htne, if_neg h0, hrv]
  rw [if_neg hcne]

/-- A zero-padded rounds token makes `parse_mc3` fail. -/
theorem parse_mc3_zero_tok (ident : List Char) (sep : Char) (base : Nat)
    (dflt : Option Nat) (tok salt chk : List Char)
    (htne : tok ≠ []) (h0 : tok.head? = some '0') (hts : sep ∉ tok)
    (hss : sep ∉ salt) (hcs : sep ∉ chk) :
    parse_mc3 ident sep base dflt
        (ident ++ (tok ++ sep :: (salt ++ sep :: chk))) =
      .error "zero-padded rounds" := by
  unfold parse_mc3
  rw [if_pos (List.isPrefixOf_iff_prefix.2 (List.prefix_append _ _))]
  have hdrop := List.drop_left ident (tok ++ sep :: (salt ++ sep :: chk))
  rw [hdrop]
  rw [splitOn_three sep tok salt chk hts hss hcs]
  dsimp only
  unfold parseRounds
  rw [if_neg htne, if_pos h0]

/-! ## Hex codec and grub_pbkdf2_sha512
(src/passlib/handlers/pbkdf2.py lines 412-484) -/

/-- Modelled from the spec: `binascii.unhexlify` — pairs of hex digits to
bytes, failing on odd length or a non-hex character. -/
def unhexlify : List Char → Option (List Nat)
  | [] => some []
  | [_] => none
  | h :: l :: rest =>
    match hexVal h, hexVal l, unhexlify rest with
    | some a, some b, some bs => some ((a * 16 + b) :: bs)
    | _, _, _ => none

/-- Modelled from the spec: `binascii.hexlify` — each byte to two lowercase
hex digits. -/
def hexlify (bs : List Nat) : List Char :=
  bs.flatMap fun b => [digitCharL (b / 16), digitCharL (b % 16)]

/-- Python `str.upper` on an ASCII character. -/
def upChar (c : Char) : Char :=
  if 'a' ≤ c ∧ c ≤ 'z' then Char.ofNat (c.toNat - 32) else c

/-- Python `str.upper`. -/
def pyUpper (s : List Char) : List Char := s.map upChar

/-- Rounds bounds of `grub_pbkdf2_sha512` (lines 458-461). -/
def grub_rounds_cfg : RoundsCfg := ⟨1, 4294967295, 12000, false⟩

/-- Salt bounds of `grub_pbkdf2_sha512` (lines 454-456); byte salts drawn
from the full byte range. -/
def grub_salt_cfg : SaltCfg Nat := ⟨0, 1024, 64, List.range 256⟩

def grub_ident : List Char := cs "grub.pbkdf2.sha512."

/-- `grub_pbkdf2_sha512.from_string` (lines 463-470). -/
def grub_from_string (rng : Nat → Nat) (s : List Char) :
    Except String (Mc3Inst Nat) :=
  mc3_from_string grub_ident '.' 10 none unhexlify unhexlify
    grub_rounds_cfg grub_salt_cfg rng s

/-- `grub_pbkdf2_sha512.to_string` (lines 472-478): hex fields rendered
upper case. -/
def grub_to_string (withchk : Bool) (self : Mc3Inst Nat) : List Char :=
  mc3_to_string grub_ident '.' 10 (fun b => pyUpper (hexlify b))
    (fun b => pyUpper (hexlify b)) withchk self

theorem hexVal_lt_16 {c : Char} {a : Nat} (h : hexVal c = some a) : a < 16 := by
  unfold hexVal at h
  split_ifs at h with h1 h2 h3 <;> injection h with h
  · obtain ⟨hl, hr⟩ := h1
    have l1 : 48 ≤ c.toNat := char_le_toNat hl
    have l2 : c.toNat ≤ 57 := char_le_toNat hr
    omega
  · obtain ⟨hl, hr⟩ := h2
    have l1 : 97 ≤ c.toNat := char_le_toNat hl
    have l2 : c.toNat ≤ 102 := char_le_toNat hr
    omega
  · obtain ⟨hl, hr⟩ := h3
    have l1 : 65 ≤ c.toNat := char_le_toNat hl
    have l2 : c.toNat ≤ 70 := char_le_toNat hr
    omega

/-- Re-hexlifying a decoded hex token reproduces it up to letter case. -/
theorem upChar_digitCharL {c : Char} {a : Nat} (h : hexVal c = some a) :
    upChar (digitCharL a) = upChar c := by
  by_cases ha : a < 10
  · rw [hexVal_digit_char h ha]
  · unfold hexVal at h
    split_ifs at h with h1 h2 h3 <;> injection h with h
    · obtain ⟨hl, hr⟩ := h1
      have l1 : 48 ≤ c.toNat := char_le_toNat hl
      have l2 : c.toNat ≤ 57 := char_le_toNat hr
      omega
    · obtain ⟨hl, hr⟩ := h2
      have l1 : 97 ≤ c.toNat := char_le_toNat hl
      have l2 : c.toNat ≤ 102 := char_le_toNat hr
      have hk : c.toNat = 87 + a := by omega
      rw [char_eq_of_toNat c (87 + a) hk]
      have ha16 : a < 16 := by omega
      interval_cases a <;> decide
    · obtain ⟨hl, hr⟩ := h3
      have l1 : 65 ≤ c.toNat := char_le_toNat hl
      have l2 : c.toNat ≤ 70 := char_le_toNat hr
      have hk : c.toNat = 55 + a := by omega
      rw [char_eq_of_toNat c (55 + a) hk]
      have ha16 : a < 16 := by omega
      interval_cases a <;> decide

theorem unhexlify_props : ∀ (t : List Char), t.length % 2 = 0 →
    (∀ c ∈ t, (hexVal c).isSome) →
    ∃ bs, unhexlify t = some bs ∧ 2 * bs.length = t.length ∧
      (∀ b ∈ bs, b < 256) ∧ pyUpper (hexlify bs) = pyUpper t
  | [], _, _ => ⟨[], rfl, rfl, by simp, rfl⟩
  | [c], hlen, _ => by simp at hlen
  | h :: l :: rest, hlen, hhex => by
    obtain ⟨a, ha⟩ := Option.isSome_iff_exists.1
      (hhex h (List.mem_cons_self _ _))
    obtain ⟨b, hb⟩ := Option.isSome_iff_exists.1
      (hhex l (List.mem_cons_of_mem _ (List.mem_cons_self _ _)))
    have ha16 := hexVal_lt_16 ha
    have hb16 := hexVal_lt_16 hb
    obtain ⟨bs, hbs, hbl, hblt, hup⟩ := unhexlify_props rest
      (by simp at hlen ⊢; omega)
      (fun c hc => hhex c (List.mem_cons_of_mem _ (List.mem_cons_of_mem _ hc)))
    refine ⟨(a * 16 + b) :: bs, ?_, by simp; omega, ?_, ?_⟩
    · unfold unhexlify
      rw [ha, hb, hbs]
    · intro x hx
      rcases List.mem_cons.1 hx with h | h
      · omega
      · exact hblt x h
    · unfold hexlify pyUpper
      simp only [List.flatMap_cons, List.map_append, List.map_cons, List.map_nil]
      have hdiv : (a * 16 + b) / 16 = a := by omega
      have hmod : (a * 16 + b) % 16 = b := by omega
      rw [hdiv, hmod, upChar_digitCharL ha, upChar_digitCharL hb]
      unfold hexlify pyUpper at hup
      simp only [List.cons_append, List.nil_append, List.map_cons]
      rw [hup]

theorem not_mem_of_hexValSome (sep : Char) (t : List Char)
    (hsep : hexVal sep = none) (h : ∀ c ∈ t, (hexVal c).isSome) :
    sep ∉ t := by
  intro hmem
  have hc := h sep hmem
  rw [hsep] at hc
  simp at hc

/-- C6: `grub_pbkdf2_sha512.from_string` on a well-formed
`grub.pbkdf2.sha512.<rounds>.<hex-salt>.<hex-checksum>` string yields the
decimal rounds integer and the hex-decoded salt and checksum bytes, and
`to_string` on the resulting instance reproduces the identical input string
with both hex fields normalized to upper case. -/
theorem grub_roundtrip (rng : Nat → Nat) (tr ts tc : List Char) (rv : Nat)
    (htr_ne : tr ≠ []) (htr_dig : ∀ c ∈ tr, (digVal 10 c).isSome)
    (htr0 : tr.head? ≠ some '0') (hrv : parseBase 10 tr = some rv)
    (hrmax : rv ≤ 4294967295)
    (hts_len : ts.length % 2 = 0) (hts_hex : ∀ c ∈ ts, (hexVal c).isSome)
    (hts_max : ts.length ≤ 2048)
    (htc_len : tc.length % 2 = 0) (htc_hex : ∀ c ∈ tc, (hexVal c).isSome)
    (htc_ne : tc ≠ []) :
    ∃ sb cb, unhexlify ts = some sb ∧ unhexlify tc = some cb ∧
      grub_from_string rng (grub_ident ++ (tr ++ '.' :: (ts ++ '.' :: tc))) =
        .ok ⟨some cb, sb, rv⟩ ∧
      grub_to_string true ⟨some cb, sb, rv⟩ =
        grub_ident ++ (tr ++ '.' :: (pyUpper ts ++ '.' :: pyUpper tc)) := by
  obtain ⟨sb, hsb, hsbl, hsblt, hsup⟩ := unhexlify_props ts hts_len hts_hex
  obtain ⟨cb, hcb, hcbl, hcblt, hcup⟩ := unhexlify_props tc htc_len htc_hex
  have hdot : hexVal '.' = none := by decide
  have htr_hex : ∀ c ∈ tr, (hexVal c).isSome := fun c hc => by
    obtain ⟨v, hv⟩ := Option.isSome_iff_exists.1 (htr_dig c hc)
    rw [(digVal_lt hv).2]
    rfl
  have hd_tr : '.' ∉ tr := not_mem_of_hexValSome '.' tr hdot htr_hex
  have hd_ts : '.' ∉ ts := not_mem_of_hexValSome '.' ts hdot hts_hex
  have hd_tc : '.' ∉ tc := not_mem_of_hexValSome '.' tc hdot htc_hex
  have hpos : 1 ≤ rv := by
    cases tr with
    | nil => exact absurd rfl htr_ne
    | cons c rest =>
      have hc0 : c ≠ '0' := fun hc => htr0 (by rw [hc]; rfl)
      obtain ⟨w, hw, hw1⟩ := parseBase_pos 10 (by omega) c rest htr_dig hc0
      rw [hw] at hrv
      injection hrv with hrv
      omega
  refine ⟨sb, cb, hsb, hcb, ?_, ?_⟩
  · unfold grub_from_string mc3_from_string
    rw [parse_mc3_tokens grub_ident '.' 10 none tr ts tc rv htr_ne htr0 hrv
      hd_tr hd_ts hd_tc htc_ne]
    dsimp only [except_bind_ok]
    rw [hsb]
    dsimp only [except_bind_ok]
    rw [hcb]
    dsimp only [except_bind_ok]
    exact mc3_mk_ok grub_rounds_cfg grub_salt_cfg rng (some cb) sb rv false
      (by simp [grub_salt_cfg]) (by simp only [grub_salt_cfg]; omega)
      (by simp only [grub_rounds_cfg]; exact_mod_cast hpos)
      (by simp only [grub_rounds_cfg]; exact_mod_cast hrmax)
  · have hcanon : natToBase 10 rv = tr :=
      natToBase_parseBase 10 (by omega) (by omega) tr htr_ne htr_dig htr0 rv hrv
    unfold grub_to_string mc3_to_string render_mc3
    dsimp only
    rw [hcanon, hsup, hcup]
    rfl

theorem grub_roundtrip_witness :
    ((cs "10000" ≠ [] ∧ parseBase 10 (cs "10000") = some 10000) ∧
      (cs "AB12").length % 2 = 0 ∧ (cs "00ff").length % 2 = 0) ∧
    (∃ sb cb, unhexlify (cs "AB12") = some sb ∧ unhexlify (cs "00ff") = some cb ∧
      grub_from_string (fun _ => 0)
          (grub_ident ++ (cs "10000" ++ '.' :: (cs "AB12" ++ '.' :: cs "00ff"))) =
        .ok ⟨some cb, sb, 10000⟩ ∧
      grub_to_string true ⟨some cb, sb, 10000⟩ =
        grub_ident ++ (cs "10000" ++ '.' ::
          (pyUpper (cs "AB12") ++ '.' :: pyUpper (cs "00ff")))) :=
  ⟨⟨⟨by decide, by decide⟩, by decide, by decide⟩,
    grub_roundtrip (fun _ => 0) (cs "10000") (cs "AB12") (cs "00ff") 10000
      (by decide) (by decide) (by decide) (by decide) (by decide) (by decide)
      (by decide) (by decide) (by decide) (by decide) (by decide)⟩

/-! ## cta_pbkdf2_sha1 (src/passlib/handlers/pbkdf2.py lines 153-248) -/

/-- Modelled from the spec: the value of a standard-base64 symbol with the
altchars `-_` in place of `+/` (`CTA_ALTCHARS`). -/
def b64AltVal (c : Char) : Option Nat :=
  if 'A' ≤ c ∧ c ≤ 'Z' then some (c.toNat - 65)
  else if 'a' ≤ c ∧ c ≤ 'z' then some (c.toNat - 71)
  else if '0' ≤ c ∧ c ≤ '9' then some (c.toNat + 4)
  else if c = '-' then some 62
  else if c = '_' then some 63
  else none

/-- Modelled from the spec: `base64.b64decode` with altchars `-_` —
MSB-first 6-bit groups, `=` padding on the final group. -/
def b64_decode_alt : List Char → Option (List Nat)
  | [] => some []
  | c1 :: c2 :: c3 :: c4 :: rest => do
    let a ← b64AltVal c1
    let b ← b64AltVal c2
    if c3 = '=' ∧ c4 = '=' ∧ rest = [] then
      some [(a * 4 + b / 16) % 256]
    else do
      let c ← b64AltVal c3
      if c4 = '=' ∧ rest = [] then
        some [(a * 4 + b / 16) % 256, (b % 16 * 16 + c / 4) % 256]
      else do
        let d ← b64AltVal c4
        let tail ← b64_decode_alt rest
        some ((a * 4 + b / 16) % 256 :: (b % 16 * 16 + c / 4) % 256 ::
          (c % 4 * 64 + d) % 256 :: tail)
  | _ => none

/-- Rounds bounds of `cta_pbkdf2_sha1` (lines 205-208). -/
def cta_rounds_cfg : RoundsCfg := ⟨1, 4294967295, 60000, false⟩

/-- Salt bounds of `cta_pbkdf2_sha1` (lines 200-202). -/
def cta_salt_cfg : SaltCfg Nat := ⟨0, 1024, 16, List.range 256⟩

/-- `cta_pbkdf2_sha1.from_string` (lines 221-228): `parse_mc3` with
hexadecimal rounds, then base64-with-altchars decoding. -/
def cta_from_string (rng : Nat → Nat) (s : List Char) :
    Except String (Mc3Inst Nat) :=
  mc3_from_string (cs "$p5k2$") '$' 16 none b64_decode_alt b64_decode_alt
    cta_rounds_cfg cta_salt_cfg rng s

theorem cta_zero_padded_rejected (rng : Nat → Nat) (tok salt chk : List Char)
    (htne : tok ≠ []) (h0 : tok.head? = some '0') (hts : '$' ∉ tok)
    (hss : '$' ∉ salt) (hcs : '$' ∉ chk) :
    ∃ e, cta_from_string rng
        (cs "$p5k2$" ++ (tok ++ '$' :: (salt ++ '$' :: chk))) = .error e := by
  unfold cta_from_string mc3_from_string
  rw [parse_mc3_zero_tok (cs "$p5k2$") '$' 16 none tok salt chk htne h0 hts
    hss hcs]
  exact ⟨_, rfl⟩

/-- C7: a hash string whose rounds field is present but zero-padded (the
token starts with `'0'`) is rejected as malformed by
`sha512_crypt.from_string` and by the `cta_pbkdf2_sha1` parser. -/
theorem zero_padded_rounds_rejected (rng : Nat → Nat)
    (tok rest tok2 salt chk : List Char)
    (hne : tok ≠ []) (hdig : ∀ c ∈ tok, c.isDigit = true)
    (h0 : tok.head? = some '0')
    (hne2 : tok2 ≠ []) (h02 : tok2.head? = some '0') (ht2 : '$' ∉ tok2)
    (hss : '$' ∉ salt) (hcs : '$' ∉ chk) :
    (∃ e, sha512_from_string rng (cs "$6$rounds=" ++ (tok ++ '$' :: rest)) =
      .error e) ∧
    (∃ e, cta_from_string rng
        (cs "$p5k2$" ++ (tok2 ++ '$' :: (salt ++ '$' :: chk))) = .error e) :=
  ⟨sha512_zero_padded_rejected rng tok rest hne hdig h0,
    cta_zero_padded_rejected rng tok2 salt chk hne2 h02 ht2 hss hcs⟩

theorem zero_padded_rounds_rejected_witness :
    ((cs "010" ≠ [] ∧ (cs "010").head? = some '0') ∧
      ∃ e, sha512_from_string (fun _ => 0)
        (cs "$6$rounds=" ++ (cs "010" ++ '$' :: cs "aa")) = .error e) :=
  ⟨⟨by decide, by decide⟩,
    (zero_padded_rounds_rejected (fun _ => 0) (cs "010") (cs "aa") (cs "010")
      (cs "ZxK4ZBJCfQg=") (cs "jJZVscWtO")
      (by decide) (by decide) (by decide) (by decide) (by decide) (by decide)
      (by decide) (by decide)).1⟩

/-! ## dlitz_pbkdf2_sha1 (src/passlib/handlers/pbkdf2.py lines 253-348) -/

/-- Rounds bounds of `dlitz_pbkdf2_sha1` (lines 306-309). -/
def dlitz_rounds_cfg : RoundsCfg := ⟨1, 4294967295, 60000, false⟩

/-- Salt bounds of `dlitz_pbkdf2_sha1` (lines 300-303): character salts from
the hash64 charset. -/
def dlitz_salt_cfg : SaltCfg Char := ⟨0, 1024, 16, H64_CHARS⟩

/-- `dlitz_pbkdf2_sha1.from_string` (lines 322-326): `parse_mc3` with
hexadecimal rounds and implicit default 400; salt and checksum are kept as
plain text. -/
def dlitz_from_string (rng : Nat → Nat) (s : List Char) :
    Except String (Mc3Inst Char) :=
  mc3_from_string (cs "$p5k2$") '$' 16 (some 400) some some
    dlitz_rounds_cfg dlitz_salt_cfg rng s

/-- `dlitz_pbkdf2_sha1.to_string` (lines 328-334): the rounds field is
omitted whenever the rounds value equals 400. -/
def dlitz_to_string (withchk : Bool) (self : Mc3Inst Char) : List Char :=
  render_mc3 (cs "$p5k2$") '$' 16
    (if self.rounds = 400 then none else some self.rounds) self.salt
    (if withchk then self.checksum else none)

theorem head_mem_of_ne_nil {α : Type} (l : List α) (h : l ≠ []) :
    ∃ c, l.head? = some c ∧ c ∈ l := by
  cases l with
  | nil => exact absurd rfl h
  | cons a as => exact ⟨a, rfl, List.mem_cons_self a as⟩

/-- C8: `dlitz_pbkdf2_sha1.from_string` on a string whose rounds field is
absent yields rounds 400; `to_string` omits the rounds field exactly when
the rounds equal 400, a value-only rule independent of whether the rounds
were explicit in the parsed input; hence parse-then-render is the identity
on such strings, and an explicitly written `190` (hex 400) also re-renders
with the field omitted. -/
theorem dlitz_rounds_rule (rng : Nat → Nat) (salt chk : List Char)
    (inst : Mc3Inst Char) (hss : '$' ∉ salt) (hcs : '$' ∉ chk)
    (hcne : chk ≠ []) (hlen : salt.length ≤ 1024) :
    (dlitz_from_string rng (cs "$p5k2$" ++ ('$' :: (salt ++ '$' :: chk))) =
      .ok ⟨some chk, salt, 400⟩) ∧
    (dlitz_to_string true ⟨some chk, salt, 400⟩ =
      cs "$p5k2$" ++ ('$' :: (salt ++ '$' :: chk))) ∧
    (((dlitz_to_string true inst).drop 6).head? = some '$' ↔
      inst.rounds = 400) ∧
    (dlitz_from_string rng
        (cs "$p5k2$" ++ (cs "190" ++ '$' :: (salt ++ '$' :: chk))) =
      .ok ⟨some chk, salt, 400⟩) := by
  refine ⟨?_, ?_, ?_, ?_⟩
  · unfold dlitz_from_string mc3_from_string
    have hshape : cs "$p5k2$" ++ ('$' :: (salt ++ '$' :: chk)) =
        render_mc3 (cs "$p5k2$") '$' 16 none salt (some chk) := rfl
    rw [hshape, parse_mc3_render_none (cs "$p5k2$") '$' 16 400 salt chk hss
      hcs hcne]
    dsimp only [except_bind_ok]
    exact mc3_mk_ok dlitz_rounds_cfg dlitz_salt_cfg rng (some chk) salt 400
      false (by simp [dlitz_salt_cfg]) (by simpa [dlitz_salt_cfg] using hlen)
      (by simp [dlitz_rounds_cfg]) (by simp [dlitz_rounds_cfg])
  · unfold dlitz_to_string render_mc3
    rw [if_pos rfl]
    rfl
  · unfold dlitz_to_string render_mc3
    by_cases hr : inst.rounds = 400
    · rw [if_pos hr]
      simp only [hr, iff_true]
      cases hchk : inst.checksum with
      | none =>
        rw [if_pos trivial]
        have hdrop := List.drop_left (cs "$p5k2$") ([] ++ '$' :: inst.salt)
        rw [show (6 : Nat) = (cs "$p5k2$").length from rfl, hdrop]
        rfl
      | some c =>
        rw [if_pos trivial]
        have hdrop := List.drop_left (cs "$p5k2$")
          ([] ++ '$' :: (inst.salt ++ '$' :: c))
        rw [show (6 : Nat) = (cs "$p5k2$").length from rfl, hdrop]
        rfl
    · rw [if_neg hr]
      simp only [hr, iff_false]
      obtain ⟨c0, hc0, hc0m⟩ := head_mem_of_ne_nil (natToBase 16 inst.rounds)
        (natToBase_ne_nil 16 inst.rounds (by omega))
      have hne0 : c0 ≠ '$' := by
        obtain ⟨v, hv⟩ := Option.isSome_iff_exists.1
          (natToBase_digits 16 (by omega) (by omega) inst.rounds c0 hc0m)
        intro hc
        rw [hc] at hv
        have := (digVal_lt hv).2
        rw [show hexVal '$' = none from by decide] at this
        exact Option.noConfusion this
      cases hchk : inst.checksum with
      | none =>
        rw [if_pos trivial]
        have hdrop := List.drop_left (cs "$p5k2$")
          (natToBase 16 inst.rounds ++ '$' :: inst.salt)
        rw [show (6 : Nat) = (cs "$p5k2$").length from rfl, hdrop]
        rw [head?_append_of_ne_nil _ _ (natToBase_ne_nil 16 inst.rounds (by omega))]
        rw [hc0]
        intro hcontra
        exact hne0 (by injection hcontra)
      | some c =>
        rw [if_pos trivial]
        have hdrop := List.drop_left (cs "$p5k2$")
          (natToBase 16 inst.rounds ++ '$' :: (inst.salt ++ '$' :: c))
        rw [show (6 : Nat) = (cs "$p5k2$").length from rfl, hdrop]
        rw [head?_append_of_ne_nil _ _ (natToBase_ne_nil 16 inst.rounds (by omega))]
        rw [hc0]
        intro hcontra
        exact hne0 (by injection hcontra)
  · unfold dlitz_from_string mc3_from_string
    rw [parse_mc3_tokens (cs "$p5k2$") '$' 16 (some 400) (cs "190") salt chk
      400 (by decide) (by decide) (by decide) (by decide) hss hcs hcne]
    dsimp only [except_bind_ok]
    exact mc3_mk_ok dlitz_rounds_cfg dlitz_salt_cfg rng (some chk) salt 400
      false (by simp [dlitz_salt_cfg]) (by simpa [dlitz_salt_cfg] using hlen)
      (by simp [dlitz_rounds_cfg]) (by simp [dlitz_rounds_cfg])

theorem dlitz_rounds_rule_witness :
    (('$' ∉ cs "u9HvcT4d") ∧ ('$' ∉ cs "Sd1gwSVCLZ") ∧ cs "Sd1gwSVCLZ" ≠ []) ∧
    dlitz_from_string (fun _ => 0)
        (cs "$p5k2$" ++ ('$' :: (cs "u9HvcT4d" ++ '$' :: cs "Sd1gwSVCLZ"))) =
      .ok ⟨some (cs "Sd1gwSVCLZ"), cs "u9HvcT4d", 400⟩ :=
  ⟨⟨by decide, by decide, by decide⟩,
    (dlitz_rounds_rule (fun _ => 0) (cs "u9HvcT4d") (cs "Sd1gwSVCLZ")
      ⟨none, [], 400⟩ (by decide) (by decide) (by decide) (by decide)).1⟩

/-! ### Basic facts about the normalizers -/

theorem norm_rounds_none_strict (cfg : RoundsCfg) :
    norm_rounds cfg none true = .error "no rounds specified" := rfl

theorem norm_rounds_none_relaxed (cfg : RoundsCfg) :
    norm_rounds cfg none false = .ok cfg.default_rounds := rfl

theorem getrandstr_length {α : Type} [Inhabited α] (rng : Nat → Nat)
    (charset : List α) (count : Nat) :
    (getrandstr rng charset count).length = count := by
  simp [getrandstr]

theorem getrandstr_mem {α : Type} [Inhabited α] (rng : Nat → Nat)
    (charset : List α) (count : Nat) (hcs : charset ≠ [])
    (c : α) (hc : c ∈ getrandstr rng charset count) : c ∈ charset := by
  simp only [getrandstr, List.mem_map] at hc
  obtain ⟨i, -, rfl⟩ := hc
  have hlen : 0 < charset.length := List.length_pos.mpr hcs
  have hidx : rng i % charset.length < charset.length := Nat.mod_lt _ hlen
  rw [charset.getD_eq_getElem default hidx]
  exact charset.getElem_mem hidx

/-- C2: `BaseSRHandler.norm_rounds(rounds, strict)`: `rounds = None` returns
`default_rounds` unless strict (raise); `rounds < min_rounds` raises when
strict or `strict_rounds_bounds`, else clamps to `min_rounds`;
`rounds > max_rounds` raises when strict or `strict_rounds_bounds`, else
clamps to `max_rounds`; any value within `[min_rounds, max_rounds]` is
returned unchanged. -/
theorem norm_rounds_spec (cfg : RoundsCfg) (r : Int) (strict : Bool)
    (hmm : cfg.min_rounds ≤ cfg.max_rounds) :
    (norm_rounds cfg none false = .ok cfg.default_rounds) ∧
    (isError (norm_rounds cfg none true) = true) ∧
    (r < cfg.min_rounds → (strict = true ∨ cfg.strict_rounds_bounds = true) →
      isError (norm_rounds cfg (some r) strict) = true) ∧
    (r < cfg.min_rounds → strict = false → cfg.strict_rounds_bounds = false →
      norm_rounds cfg (some r) strict = .ok cfg.min_rounds) ∧
    (r > cfg.max_rounds → (strict = true ∨ cfg.strict_rounds_bounds = true) →
      isError (norm_rounds cfg (some r) strict) = true) ∧
    (r > cfg.max_rounds → strict = false → cfg.strict_rounds_bounds = false →
      norm_rounds cfg (some r) strict = .ok cfg.max_rounds) ∧
    (cfg.min_rounds ≤ r → r ≤ cfg.max_rounds →
      norm_rounds cfg (some r) strict = .ok r) := by
  refine ⟨rfl, rfl, ?_, ?_, ?_, ?_, fun h1 h2 => norm_rounds_in_range cfg r strict h1 h2⟩
  · intro hlt hst
    have hb : (strict || cfg.strict_rounds_bounds) = true := by
      rcases hst with h | h <;> simp [h]
    simp [norm_rounds, hb, if_pos hlt, isError]
  · intro hlt hs hb
    simp only [norm_rounds, hs, hb, Bool.or_false]
    rw [if_pos hlt]
    simp only [if_neg (Bool.false_ne_true)]
    rw [if_neg (by omega)]
  · intro hgt hst
    have hb : (strict || cfg.strict_rounds_bounds) = true := by
      rcases hst with h | h <;> simp [h]
    simp only [norm_rounds, hb]
    rw [if_neg (by omega)]
    simp [if_pos hgt, isError]
  · intro hgt hs hb
    simp only [norm_rounds, hs, hb, Bool.or_false]
    rw [if_neg (by omega)]
    simp only
    rw [if_pos hgt]
    simp

theorem norm_rounds_spec_witness :
    ((1000 : Int) ≤ (2000 : Int) ∧
      norm_rounds ⟨1000, 2000, 1500, false⟩ (some 500) false = .ok 1000) :=
  ⟨by decide,
    (norm_rounds_spec ⟨1000, 2000, 1500, false⟩ 500 false (by decide)).2.2.2.1
      (by decide) rfl rfl⟩

/-- C3: `BaseSRHandler.norm_salt(salt, strict)`: `salt = None` raises when
strict, else draws `default_salt_chars` characters from
`default_salt_charset`; a salt shorter than `min_salt_chars` raises
regardless of strict; a salt longer than `max_salt_chars` raises when strict
and is truncated to its first `max_salt_chars` characters otherwise; a salt
whose length lies within `[min_salt_chars, max_salt_chars]` is returned
unchanged. -/
theorem norm_salt_spec {α : Type} [Inhabited α] (cfg : SaltCfg α)
    (rng : Nat → Nat) (s : List α) (strict : Bool)
    (hcs : cfg.default_salt_charset ≠ [])
    (hms : cfg.min_salt_chars ≤ cfg.max_salt_chars) :
    (isError (norm_salt cfg rng none true) = true) ∧
    (∀ out, norm_salt cfg rng none false = .ok out →
      out.length = cfg.default_salt_chars ∧
        ∀ c ∈ out, c ∈ cfg.default_salt_charset) ∧
    (s.length < cfg.min_salt_chars →
      isError (norm_salt cfg rng (some s) strict) = true) ∧
    (s.length > cfg.max_salt_chars → strict = true →
      isError (norm_salt cfg rng (some s) strict) = true) ∧
    (s.length > cfg.max_salt_chars → strict = false →
      norm_salt cfg rng (some s) strict = .ok (s.take cfg.max_salt_chars)) ∧
    (cfg.min_salt_chars ≤ s.length → s.length ≤ cfg.max_salt_chars →
      norm_salt cfg rng (some s) strict = .ok s) := by
  refine ⟨rfl, ?_, ?_, ?_, ?_, ?_⟩
  · intro out hout
    have h : getrandstr rng cfg.default_salt_charset cfg.default_salt_chars = out := by
      simpa [norm_salt] using hout
    subst h
    exact ⟨getrandstr_length rng _ _, fun c hc => getrandstr_mem rng _ _ hcs c hc⟩
  · intro hlt
    have hmn : cfg.min_salt_chars ≠ 0 := by omega
    simp [norm_salt, hmn, hlt, isError]
  · intro hgt hs
    subst hs
    simp only [norm_salt]
    rw [if_neg (by omega), if_pos hgt]
    rfl
  · intro hgt hs
    subst hs
    simp only [norm_salt]
    rw [if_neg (by omega), if_pos hgt]
    rfl
  · intro h1 h2
    simp only [norm_salt]
    rw [if_neg (by omega), if_neg (by omega)]

theorem norm_salt_spec_witness :
    ((⟨0, 4, 4, ['.', '/']⟩ : SaltCfg Char).default_salt_charset ≠ [] ∧
      (0 : Nat) ≤ (4 : Nat) ∧
      norm_salt (⟨0, 4, 4, ['.', '/']⟩ : SaltCfg Char) (fun _ => 0)
        (some ['a', 'b', 'c', 'd', 'e', 'f']) false = .ok ['a', 'b', 'c', 'd']) :=
  ⟨by decide, by decide,
    (norm_salt_spec (⟨0, 4, 4, ['.', '/']⟩ : SaltCfg Char) (fun _ => 0)
        ['a', 'b', 'c', 'd', 'e', 'f'] false (by decide) (by decide)).2.2.2.2.1
      (by decide) rfl⟩

/-- C1: for the handlers defined in the source — `sha512_crypt` and the
PBKDF2 `parse_mc3`/`render_mc3` family (`grub`, `cta`, `dlitz` are its
instances) — `verify(secret, encrypt(secret, settings))` returns true for
valid settings, and `verify(other, encrypt(secret, settings))` returns
false whenever the other secret's computed checksum differs.  The digest
kernels are opaque parameters constrained pointwise at the inputs used. -/
theorem encrypt_verify_roundtrip :
    (∀ (raw : List Char → List Char → Nat → List Char × List Char × Nat)
      (rng : Nat → Nat) (secret secret' salt : List Char) (r : Nat)
      (imp : Bool),
      (∀ c ∈ salt, saltBad c = false) → salt.length ≤ 16 →
      ¬ cs "rounds=" <+: salt → 1000 ≤ r → r ≤ 999999999 →
      (raw secret salt r).2 = (salt, r) →
      (raw secret salt r).1.length = 86 →
      (raw secret salt r).1.all isH64Char = true →
      (raw secret' salt r).2 = (salt, r) →
      (raw secret' salt r).1 ≠ (raw secret salt r).1 →
      ∃ H, sha512_encrypt raw rng secret (some salt) (some r) imp = .ok H ∧
        sha512_verify raw rng secret H = .ok true ∧
        sha512_verify raw rng secret' H = .ok false) ∧
    (∀ (α : Type) [Inhabited α] [DecidableEq α]
      (ident : List Char) (sep : Char) (base : Nat) (dflt : Option Nat)
      (encS encC : List α → List Char) (decS decC : List Char → Option (List α))
      (rcfg : RoundsCfg) (scfg : SaltCfg α)
      (calcC : List Char → List α → Nat → List α) (rng : Nat → Nat)
      (secret secret' : List Char) (salt : List α) (r : Nat),
      2 ≤ base → base ≤ 16 → hexVal sep = none → 1 ≤ r →
      rcfg.min_rounds ≤ (r : Int) → (r : Int) ≤ rcfg.max_rounds →
      scfg.min_salt_chars ≤ salt.length → salt.length ≤ scfg.max_salt_chars →
      decS (encS salt) = some salt → sep ∉ encS salt →
      decC (encC (calcC secret salt r)) = some (calcC secret salt r) →
      sep ∉ encC (calcC secret salt r) →
      encC (calcC secret salt r) ≠ [] →
      ∃ H, mc3_encrypt ident sep base encS encC rcfg scfg calcC rng secret
          (some salt) (some r) = .ok H ∧
        mc3_verify ident sep base dflt decS decC rcfg scfg calcC rng secret H
          = .ok true ∧
        (calcC secret' salt r ≠ calcC secret salt r →
          mc3_verify ident sep base dflt decS decC rcfg scfg calcC rng
            secret' H = .ok false)) :=
  ⟨fun raw rng secret secret' salt r imp hok hlen hnr hr1 hr2 hrs hcl hcok
      hrs' hne =>
    sha512_encrypt_verify raw rng secret secret' salt r imp hok hlen hnr hr1
      hr2 hrs hcl hcok hrs' hne,
   fun α _ _ ident sep base dflt encS encC decS decC rcfg scfg calcC rng
      secret secret' salt r hb2 hb16 hsep hr1 hrmin hrmax hsmin hsmax hdecS
      hsS hdecC hsC hCne =>
    mc3_encrypt_verify ident sep base dflt encS encC decS decC rcfg scfg
      calcC rng secret secret' salt r hb2 hb16 hsep hr1 hrmin hrmax hsmin
      hsmax hdecS hsS hdecC hsC hCne⟩

/-- A concrete digest kernel for exercising the round-trip: it returns a
fixed 86-character hash64 checksum that depends on the secret. -/
def wraw (sec s : List Char) (r : Nat) : List Char × List Char × Nat :=
  (if sec = cs "a" then List.replicate 86 '.' else List.replicate 86 '/',
    s, r)

theorem encrypt_verify_roundtrip_witness :
    ∃ H, sha512_encrypt wraw (fun _ => 0) (cs "a") (some (cs "ab"))
        (some 5000) true = .ok H ∧
      sha512_verify wraw (fun _ => 0) (cs "a") H = .ok true ∧
      sha512_verify wraw (fun _ => 0) (cs "b") H = .ok false :=
  encrypt_verify_roundtrip.1 wraw (fun _ => 0) (cs "a") (cs "b") (cs "ab")
    5000 true (by decide) (by decide) (by decide) (by decide) (by decide)
    (by decide) (by decide) (by decide) (by decide) (by decide)

end Passlib
